import Mathlib

/-!
Verification of the tinyplist library (an Apple XML property-list reader and
writer, `parser.mjs` and `serializer.mjs`) against its natural-language
specification.

The embedding works at the element-tree level: the host XML engine
(`DOMParser` / `XMLSerializer`) is an external collaborator, so documents are
modelled as trees of elements (tag name, ordered element children, text
content), with a malformed document represented — exactly as `DOMParser` does —
by a document that contains a `parsererror` element.  Host numeric primitives
(`Number`, `BigInt`, `parseFloat`, `String` conversion) are modelled over exact
rationals: the set of modelled numbers is a superset of the IEEE doubles the
host uses, and the decimal rendering is the exact expansion (the host prints a
shortest round-tripping decimal; both renderings parse back to the same
value).  Base64 (`btoa` / `atob` / `Uint8Array` conversions) is modelled by the
standard forgiving-base64 algorithm.
-/

/-- JavaScript whitespace (the set matched by the `\s` regular-expression class
and stripped by `Number`/`BigInt` string conversion): ASCII whitespace, NBSP,
BOM and the Unicode space separators. -/
def isJsWs (c : Char) : Bool :=
  decide (c.toNat ∈ [0x9, 0xA, 0xB, 0xC, 0xD, 0x20, 0xA0, 0x1680, 0x2000, 0x2001,
    0x2002, 0x2003, 0x2004, 0x2005, 0x2006, 0x2007, 0x2008, 0x2009, 0x200A,
    0x2028, 0x2029, 0x202F, 0x205F, 0x3000, 0xFEFF])

/-- Strip leading and trailing JavaScript whitespace from a character list. -/
def trimWs (cs : List Char) : List Char :=
  ((cs.dropWhile isJsWs).reverse.dropWhile isJsWs).reverse

/-- The character for a single decimal digit value. -/
def digitChar (d : Nat) : Char := Char.ofNat (48 + d)

/-- Little-endian decimal digits of a natural number, with explicit fuel so the
definition is structural (and hence kernel-reducible). -/
def natDigitsAux : Nat → Nat → List Nat
  | _, 0 => []
  | 0, _ => []
  | fuel + 1, n => n % 10 :: natDigitsAux fuel (n / 10)

/-- Little-endian decimal digits of a natural number. -/
def natDigits (n : Nat) : List Nat := natDigitsAux n n

/-- Decimal rendering of a natural number as a character list (the behaviour of
the host's `String(n)` for naturals). -/
def natToChars (n : Nat) : List Char :=
  if n = 0 then ['0'] else ((natDigits n).map digitChar).reverse

/-- Decimal rendering of an integer as a character list, sign included. -/
def intToChars (m : Int) : List Char :=
  if m < 0 then '-' :: natToChars m.natAbs else natToChars m.natAbs

/-- Decimal rendering of an integer: the host's `String(n)` for integers and
BigInts. -/
def intToString (m : Int) : String := String.mk (intToChars m)

/-- Value of a big-endian list of decimal digit characters (no validity check;
callers only apply it to digit characters). -/
def digitsVal (cs : List Char) : Nat :=
  cs.foldl (fun acc c => acc * 10 + (c.toNat - 48)) 0

/-- Zero-pad a digit-character list on the left to a requested width. -/
def padZeros (width : Nat) (cs : List Char) : List Char :=
  List.replicate (width - cs.length) '0' ++ cs

/-- Model of a JavaScript number as the reader/writer observes it: NaN, a
signed infinity, or a finite value.  Finite values are modelled as exact
rationals, a superset of the IEEE-754 doubles the host uses. -/
inductive JSNum where
  | nan
  | inf (neg : Bool)
  | num (x : ℚ)
deriving DecidableEq

/-- The number of factors 2 in `n`, with fuel to keep the definition
structural. -/
def twoValAux : Nat → Nat → Nat
  | 0, _ => 0
  | fuel + 1, n => if n ≠ 0 ∧ n % 2 = 0 then 1 + twoValAux fuel (n / 2) else 0

/-- The number of factors 2 in `n`. -/
def twoVal (n : Nat) : Nat := twoValAux n n

/-- The number of factors 5 in `n`, with fuel to keep the definition
structural. -/
def fiveValAux : Nat → Nat → Nat
  | 0, _ => 0
  | fuel + 1, n => if n ≠ 0 ∧ n % 5 = 0 then 1 + fiveValAux fuel (n / 5) else 0

/-- The number of factors 5 in `n`. -/
def fiveVal (n : Nat) : Nat := fiveValAux n n

/-- Exact positional decimal rendering of a rational whose denominator divides
a power of ten (every finite double qualifies): sign, integer digits, and a
fraction part when the denominator is not 1.  For non-integral values the host
prints a shortest round-tripping decimal while the model prints the exact
expansion — both parse back to the same machine number. -/
def qRenderPositional (q : ℚ) : String :=
  let e := max (twoVal q.den) (fiveVal q.den)
  let m : Int := q.num * ((10 ^ e / q.den : Nat) : Int)
  if e = 0 then intToString m
  else
    let a := m.natAbs
    String.mk ((if m < 0 then ['-'] else []) ++ natToChars (a / 10 ^ e) ++
      '.' :: padZeros e (natToChars (a % 10 ^ e)))

/-- Whether the host's `String(number)` renders the finite value `q` in
exponential notation: ECMAScript `Number::toString` switches to scientific
form exactly when `|x| ≥ 10^21` or `0 < |x| < 10^-6` (`String(1e21)` is
`"1e+21"`, `String(1e-7)` is `"1e-7"`). -/
def jsExpRender (q : ℚ) : Bool :=
  decide (1000000000000000000000 * q.den ≤ q.num.natAbs) ||
    (!(q.num == 0) && decide (1000000 * q.num.natAbs < q.den))

/-- Drop the trailing zero digits of a digit list. -/
def stripTrailingZeros (ds : List Char) : List Char :=
  (ds.reverse.dropWhile (fun c => c = '0')).reverse

/-- Exponential decimal rendering `d.ddd…e±N` of a nonzero rational whose
denominator divides a power of ten: the significand is the exact digit
expansion with trailing zeros dropped (the host prints a shortest
round-tripping significand; the two agree whenever the exact significand is
shortest, as at `10^21` and `10^-7`). -/
def qRenderExponential (q : ℚ) : String :=
  let e := max (twoVal q.den) (fiveVal q.den)
  let m : Int := q.num * ((10 ^ e / q.den : Nat) : Int)
  let ds := natToChars m.natAbs
  let sig := stripTrailingZeros ds
  let n : Int := (ds.length : Int) - (e : Int) - 1
  let expPart : List Char :=
    if n < 0 then '-' :: natToChars n.natAbs else '+' :: natToChars n.natAbs
  String.mk ((if m < 0 then ['-'] else []) ++
    (match sig with
     | [] => ['0']
     | [d] => [d]
     | d :: rest => d :: '.' :: rest) ++
    'e' :: expPart)

/-- Model of the host's `String(number)` conversion for finite values:
positional decimal inside the range `10^-6 ≤ |x| < 10^21` (and for zero),
exponential notation outside it, as ECMAScript `Number::toString`
prescribes. -/
def qRenderDecimal (q : ℚ) : String :=
  if jsExpRender q then qRenderExponential q else qRenderPositional q

/-- Model of JavaScript `String(number)`. -/
def jsNumToString : JSNum → String
  | .nan => "NaN"
  | .inf neg => if neg then "-Infinity" else "Infinity"
  | .num x => qRenderDecimal x

/-- Model of `Number.isInteger`. -/
def jsIsInteger : JSNum → Bool
  | .num x => x.den == 1
  | _ => false

/-- The largest safe integer, `2^53 - 1`. -/
def maxSafeInt : Nat := 2 ^ 53 - 1

/-- Model of `Number.isSafeInteger`. -/
def jsIsSafeInteger : JSNum → Bool
  | .num x => x.den == 1 && decide (x.num.natAbs ≤ maxSafeInt)
  | _ => false

/-- Split an optional leading sign from a character list, returning whether the
value is negated and the remaining characters. -/
def splitSign (cs : List Char) : Bool × List Char :=
  match cs with
  | [] => (false, [])
  | c :: rest =>
    if c = '-' then (true, rest) else if c = '+' then (false, rest) else (false, cs)

/-- The characters of the `Infinity` literal. -/
def infinityChars : List Char := ['I', 'n', 'f', 'i', 'n', 'i', 't', 'y']

/-- Parse an unsigned decimal literal (`digits`, `digits.digits` or `.digits`)
from the front of a character list, returning its exact value and the unread
remainder. -/
def parseDecimalCore (cs : List Char) : Option (ℚ × List Char) :=
  let ip := cs.takeWhile Char.isDigit
  let r1 := cs.dropWhile Char.isDigit
  match r1 with
  | c :: r2 =>
    if c = '.' then
      let fp := r2.takeWhile Char.isDigit
      let r3 := r2.dropWhile Char.isDigit
      if ip.isEmpty && fp.isEmpty then none
      else some (mkRat ((digitsVal ip * 10 ^ fp.length + digitsVal fp : ℕ) : ℤ) (10 ^ fp.length), r3)
    else if ip.isEmpty then none else some (((digitsVal ip : ℕ) : ℚ), c :: r2)
  | [] => if ip.isEmpty then none else some (((digitsVal ip : ℕ) : ℚ), [])

/-- Parse an exponent suffix (`e`/`E`, optional sign, digits) from the front of
a character list. -/
def parseExponentPart (cs : List Char) : Option (Int × List Char) :=
  match cs with
  | [] => none
  | c :: rest =>
    if c = 'e' ∨ c = 'E' then
      let p := splitSign rest
      let ds := p.2.takeWhile Char.isDigit
      let r := p.2.dropWhile Char.isDigit
      if ds.isEmpty then none
      else some ((if p.1 then -(digitsVal ds : Int) else (digitsVal ds : Int)), r)
    else none

/-- Multiply an exact value by a power of ten (the effect of an exponent
suffix), phrased with `Rat.divInt` so the definition reduces in the kernel. -/
def applyExponent (q : ℚ) (e : Int) : ℚ :=
  if 0 ≤ e then Rat.divInt (q.num * 10 ^ e.toNat) (q.den : ℤ)
  else Rat.divInt q.num ((q.den : ℤ) * 10 ^ (-e).toNat)

/-- Parse an unsigned decimal literal with an optional well-formed exponent
suffix; a malformed exponent suffix is left unread, as `parseFloat` does. -/
def parseDecimalWithExp (cs : List Char) : Option (ℚ × List Char) :=
  match parseDecimalCore cs with
  | none => none
  | some (q, rest) =>
    match parseExponentPart rest with
    | some (e, rest2) => some (applyExponent q e, rest2)
    | none => some (q, rest)

/-- Value of a hexadecimal digit character, if it is one. -/
def hexDigitVal (c : Char) : Option Nat :=
  if '0' ≤ c ∧ c ≤ '9' then some (c.toNat - 48)
  else if 'a' ≤ c ∧ c ≤ 'f' then some (c.toNat - 87)
  else if 'A' ≤ c ∧ c ≤ 'F' then some (c.toNat - 55)
  else none

/-- Accumulate the value of digit characters in a given radix, failing on a
character that is not a digit of that radix. -/
def radixValAux (base : Nat) (acc : Nat) : List Char → Option Nat
  | [] => some acc
  | c :: cs =>
    match hexDigitVal c with
    | some d => if d < base then radixValAux base (acc * base + d) cs else none
    | none => none

/-- Value of a non-empty digit string in a given radix. -/
def radixVal (base : Nat) (ds : List Char) : Option Nat :=
  if ds.isEmpty then none else radixValAux base 0 ds

/-- Recognize a `0x`/`0o`/`0b` radix literal.  The outer `none` means the text
is not a radix literal at all; `some none` means it is one with invalid
digits. -/
def parseRadix (cs : List Char) : Option (Option Nat) :=
  match cs with
  | '0' :: c :: ds =>
    if c = 'x' ∨ c = 'X' then some (radixVal 16 ds)
    else if c = 'o' ∨ c = 'O' then some (radixVal 8 ds)
    else if c = 'b' ∨ c = 'B' then some (radixVal 2 ds)
    else none
  | _ => none

/-- Model of JavaScript `Number(string)`: trim whitespace, map the empty string
to 0, and otherwise require the whole remaining text to be a numeric literal
(radix literal, signed `Infinity`, or signed decimal with optional exponent);
anything else is NaN. -/
def jsToNumber (s : String) : JSNum :=
  let cs := trimWs s.data
  if cs.isEmpty then .num 0
  else
    match parseRadix cs with
    | some (some v) => .num ((v : ℕ) : ℚ)
    | some none => .nan
    | none =>
      let p := splitSign cs
      if p.2 = infinityChars then .inf p.1
      else
        match parseDecimalWithExp p.2 with
        | some (q, []) => .num (if p.1 then -q else q)
        | _ => .nan

/-- Model of JavaScript `BigInt(string)`, returning `none` where the host
throws a `SyntaxError`: trim whitespace, map the empty string to 0, accept a
radix literal or a signed string of decimal digits, and reject everything
else (fractional or exponent forms included). -/
def jsToBigInt (s : String) : Option Int :=
  let cs := trimWs s.data
  if cs.isEmpty then some 0
  else
    match parseRadix cs with
    | some (some v) => some ((v : ℕ) : ℤ)
    | some none => none
    | none =>
      let p := splitSign cs
      if !p.2.isEmpty && p.2.all Char.isDigit then
        some (if p.1 then -((digitsVal p.2 : ℕ) : ℤ) else ((digitsVal p.2 : ℕ) : ℤ))
      else none

/-- Model of JavaScript `parseFloat(string)`: trim leading whitespace, then
read the longest prefix that is a signed decimal literal (or `Infinity`),
ignoring any trailing garbage; NaN when no prefix parses. -/
def jsParseFloat (s : String) : JSNum :=
  let cs := s.data.dropWhile isJsWs
  let p := splitSign cs
  if p.2.take 8 = infinityChars then .inf p.1
  else
    match parseDecimalWithExp p.2 with
    | some (q, _) => .num (if p.1 then -q else q)
    | none => .nan

/-- The base64 alphabet character for a sextet value. -/
def sextetChar (s : Nat) : Char :=
  if s < 26 then Char.ofNat (65 + s)
  else if s < 52 then Char.ofNat (97 + (s - 26))
  else if s < 62 then Char.ofNat (48 + (s - 52))
  else if s = 62 then '+' else '/'

/-- The sextet value of a base64 alphabet character, if it is one. -/
def charSextet (c : Char) : Option Nat :=
  if 'A' ≤ c ∧ c ≤ 'Z' then some (c.toNat - 65)
  else if 'a' ≤ c ∧ c ≤ 'z' then some (c.toNat - 71)
  else if '0' ≤ c ∧ c ≤ '9' then some (c.toNat + 4)
  else if c = '+' then some 62
  else if c = '/' then some 63
  else none

/-- Regroup a byte sequence into base64 sextets (6-bit groups, final partial
group zero-padded on the right). -/
def bytesToSextets : List Nat → List Nat
  | [] => []
  | [a] => [a / 4, a % 4 * 16]
  | [a, b] => [a / 4, a % 4 * 16 + b / 16, b % 16 * 4]
  | a :: b :: c :: rest =>
    a / 4 :: (a % 4 * 16 + b / 16) :: (b % 16 * 4 + c / 64) :: c % 64 :: bytesToSextets rest

/-- The `=` padding appended to a base64 encoding of `n` bytes. -/
def b64PadChars (n : Nat) : List Char :=
  if n % 3 = 1 then ['=', '='] else if n % 3 = 2 then ['='] else []

/-- Base64 encoding of a byte sequence as characters: the behaviour of
`Uint8Array.prototype.toBase64` and of the serializer's `btoa` fallback
(standard alphabet, padded, no line wrapping). -/
def b64encodeChars (bs : List Nat) : List Char :=
  (bytesToSextets bs).map sextetChar ++ b64PadChars bs.length

/-- Base64 encoding of a byte sequence: the serializer's `b64` helper. -/
def b64encode (bs : List Nat) : String := String.mk (b64encodeChars bs)

/-- Regroup base64 sextets into bytes, discarding the final group's leftover
bits; a final group of a single sextet is invalid. -/
def sextetsToBytes : List Nat → Option (List Nat)
  | [] => some []
  | [_] => none
  | [s1, s2] => some [s1 * 4 + s2 / 16]
  | [s1, s2, s3] => some [s1 * 4 + s2 / 16, s2 % 16 * 16 + s3 / 4]
  | s1 :: s2 :: s3 :: s4 :: rest =>
    (sextetsToBytes rest).map
      (fun tl => (s1 * 4 + s2 / 16) :: (s2 % 16 * 16 + s3 / 4) :: (s3 % 4 * 64 + s4) :: tl)

/-- Remove up to two trailing `=` padding characters when the length is a
multiple of four, per the forgiving-base64 algorithm. -/
def dropTrailingEq (cs : List Char) : List Char :=
  if cs.length % 4 = 0 then
    match cs.reverse with
    | c1 :: c2 :: r =>
      if c1 = '=' then (if c2 = '=' then r.reverse else (c2 :: r).reverse) else cs
    | [c1] => if c1 = '=' then [] else cs
    | [] => cs
  else cs

/-- Forgiving-base64 decoding of a whitespace-free character list: the
behaviour of `atob` / `Uint8Array.fromBase64` on cleaned input. -/
def b64decodeChars (cs : List Char) : Option (List Nat) :=
  let cs := dropTrailingEq cs
  if cs.length % 4 = 1 then none
  else
    match cs.mapM charSextet with
    | some ss => sextetsToBytes ss
    | none => none

/-- The parser's `data` helper: strip all JavaScript whitespace, then
base64-decode; `none` models the fatal decoding exception. -/
def b64decodeData (s : String) : Option (List Nat) :=
  b64decodeChars (s.data.filter (fun c => !isJsWs c))

/-- An XML element as the DOM exposes it to the parser and serializer: a tag
name, the ordered element children (`Element.children` in the DOM returns
element nodes only), and the element's own text.  This is the element-tree
interface the spec assigns to the external XML Tree Adapter. -/
inductive Element where
  | mk (tag : String) (children : List Element) (text : String)

/-- The tag name of an element (`tagName` in the DOM). -/
def Element.tag : Element → String
  | .mk t _ _ => t

/-- The element children of an element (`children` in the DOM). -/
def Element.children : Element → List Element
  | .mk _ cs _ => cs

mutual

/-- The concatenated text of an element and its descendants (`textContent` in
the DOM). -/
def Element.textContent : Element → String
  | .mk _ cs t => t ++ textContentList cs

/-- The concatenated text content of a list of elements. -/
def textContentList : List Element → String
  | [] => ""
  | c :: cs => c.textContent ++ textContentList cs

end

mutual

/-- The first element with a given tag name in tree order, the element itself
included: the behaviour of `querySelector(tag)` on the document. -/
def findTag (t : String) (e : Element) : Option Element :=
  match e with
  | .mk tag cs text =>
    if tag = t then some (.mk tag cs text) else findTagList t cs

/-- The first element with a given tag name among a list of trees. -/
def findTagList (t : String) : List Element → Option Element
  | [] => none
  | c :: cs =>
    match findTag t c with
    | some r => some r
    | none => findTagList t cs

end

/-- The value model: the JavaScript values the parser produces and the
serializer consumes.  `undef` is JavaScript `undefined` (not part of the
spec's PlistValue, but accepted by the writer); `bigint` is an
arbitrary-precision integer; `num` is a machine number; `date` holds the
instant's epoch-millisecond count; `dict` holds the entries in property
order. -/
inductive PValue where
  | null
  | undef
  | bool (b : Bool)
  | str (s : String)
  | num (j : JSNum)
  | bigint (n : Int)
  | date (ms : Int)
  | data (bytes : List Nat)
  | arr (items : List PValue)
  | dict (entries : List (String × PValue))

/-- Modelled from the spec: the host `Date` codec (`toISOString` on write,
`new Date(text)` on read) is an external collaborator ("parsed/serialized
using ISO-8601"); it is modelled abstractly as an invertible decimal rendering
of the epoch-millisecond count, since no claim concerns the textual shape of
dates. -/
def dateToText (ms : Int) : String := intToString ms

/-- Modelled from the spec: the inverse host `Date` parse; an unparseable
string stands for an Invalid Date, collapsed to instant 0. -/
def dateFromText (s : String) : Int := (jsToBigInt s).getD 0

/-- Update-or-append one entry, as property assignment on a JavaScript object
does: an existing key keeps its position and receives the new value. -/
def upsertEntry (acc : List (String × PValue)) (p : String × PValue) :
    List (String × PValue) :=
  if acc.any (fun q => q.1 = p.1) then
    acc.map (fun q => if q.1 = p.1 then (q.1, p.2) else q)
  else acc ++ [p]

/-- Model of `Object.fromEntries` followed by `Object.entries`: first
occurrence fixes a key's position, the last occurrence its value. -/
def jsFromEntries (l : List (String × PValue)) : List (String × PValue) :=
  l.foldl upsertEntry []

/-- The parser's `int` helper: `Number(text)` when the result is a safe
integer, otherwise `BigInt(text)`, whose `SyntaxError` is fatal. -/
def readInt (text : String) : Except String PValue :=
  let n := jsToNumber text
  if jsIsSafeInteger n then .ok (.num n)
  else
    match jsToBigInt text with
    | some m => .ok (.bigint m)
    | none => .error ("SyntaxError: Cannot convert " ++ text ++ " to a BigInt")

mutual

/-- The parser's `val` dispatcher: convert one element to a value, also
returning the diagnostic warnings emitted (`console.warn`) in order; a thrown
exception is a fatal `.error`. -/
def readVal : Element → Except String (PValue × List String)
  | .mk tag cs text =>
    if tag = "dict" then do
      let r ← readEntries cs
      pure (.dict (jsFromEntries r.1), r.2)
    else if tag = "array" then do
      let r ← readList cs
      pure (.arr r.1, r.2)
    else if tag = "string" then pure (.str (text ++ textContentList cs), [])
    else if tag = "integer" then do
      let v ← readInt (text ++ textContentList cs)
      pure (v, [])
    else if tag = "real" then pure (.num (jsParseFloat (text ++ textContentList cs)), [])
    else if tag = "true" then pure (.bool true, [])
    else if tag = "false" then pure (.bool false, [])
    else if tag = "date" then pure (.date (dateFromText (text ++ textContentList cs)), [])
    else if tag = "data" then
      match b64decodeData (text ++ textContentList cs) with
      | some bytes => pure (.data bytes, [])
      | none => .error "InvalidCharacterError: invalid base64 data"
    else pure (.str (text ++ textContentList cs), ["Unknown plist tag: <" ++ tag ++ ">"])

/-- Convert the children of an `array` element in order (the parser's
`Array.from(node.children, el => val(el))`). -/
def readList : List Element → Except String (List PValue × List String)
  | [] => pure ([], [])
  | c :: cs => do
    let r1 ← readVal c
    let r2 ← readList cs
    pure (r1.1 :: r2.1, r1.2 ++ r2.2)

/-- Convert the children of a `dict` element pairwise (the parser's `dict`
helper): only `floor(children.length / 2)` pairs are examined, a pair whose
first element is not tagged `key` is dropped with a warning, and any trailing
unpaired child is ignored. -/
def readEntries : List Element → Except String (List (String × PValue) × List String)
  | k :: v :: rest =>
    if k.tag = "key" then do
      let r1 ← readVal v
      let r2 ← readEntries rest
      pure ((k.textContent, r1.1) :: r2.1, r1.2 ++ r2.2)
    else do
      let r2 ← readEntries rest
      pure (r2.1, "Missing key in dictionary or malformed structure" :: r2.2)
  | _ => pure ([], [])

end

/-- The parser's `parse` entry point, taken at the element-tree level: its
input is the root of the document `DOMParser` produced (a malformed input
text yields a document containing a `parsererror` element).  Fails when a
`parsererror` element is present or no `plist` element is found; an empty
`plist` reads as Null; otherwise the first element child of `plist` is
converted. -/
def readDoc (root : Element) : Except String (PValue × List String) :=
  match findTag "parsererror" root with
  | some e => .error ("Error parsing XML: " ++ e.textContent)
  | none =>
    match findTag "plist" root with
    | none => .error "Invalid plist: Missing <plist> root element."
    | some p =>
      match p.children.head? with
      | none => .ok (.null, [])
      | some el => readVal el

mutual

/-- The serializer's `val` dispatcher: convert a value to an element, or to
nothing for `null`/`undefined`. -/
def writeVal : PValue → Option Element
  | .null => none
  | .undef => none
  | .bool b => some (.mk (if b then "true" else "false") [] "")
  | .str s => some (.mk "string" [] s)
  | .bigint n => some (.mk "integer" [] (intToString n))
  | .num j =>
    some (if jsIsInteger j then .mk "integer" [] (jsNumToString j)
          else .mk "real" [] (jsNumToString j))
  | .date ms => some (.mk "date" [] (dateToText ms))
  | .data bytes => some (.mk "data" [] (b64encode bytes))
  | .arr items => some (.mk "array" (writeList items) "")
  | .dict entries => some (.mk "dict" (writeEntries entries) "")

/-- The serializer's `arr` helper: children whose conversion produced nothing
are omitted. -/
def writeList : List PValue → List Element
  | [] => []
  | v :: vs =>
    match writeVal v with
    | some e => e :: writeList vs
    | none => writeList vs

/-- The serializer's `dict` helper: a `key` element for every entry, followed
by the value's element when the value converts to one. -/
def writeEntries : List (String × PValue) → List Element
  | [] => []
  | (k, v) :: rest =>
    .mk "key" [] k ::
      (match writeVal v with
       | some e => e :: writeEntries rest
       | none => writeEntries rest)

end

/-- The serializer's `serialize` entry point at the element-tree level: a
`plist` root with the converted value as its only child, or no child at
all for `null`/`undefined`.  (The XML declaration, DOCTYPE and version
attribute live in the text layer handled by the external adapter.) -/
def writeDoc (v : PValue) : Element :=
  .mk "plist" (writeVal v).toList ""

mutual

/-- Canonical form of a value under the spec's §3 integer convention: the two
integer sub-cases are "a single logical type", machine-width when the
magnitude fits the safe-integer range and arbitrary-precision otherwise, so
structural equality compares values after normalizing integral numbers to
that convention. -/
def canon : PValue → PValue
  | .num (.num x) =>
    if x.den = 1 ∧ maxSafeInt < x.num.natAbs then .bigint x.num else .num (.num x)
  | .num j => .num j
  | .bigint n => if n.natAbs ≤ maxSafeInt then .num (.num (n : ℚ)) else .bigint n
  | .arr items => .arr (canonList items)
  | .dict entries => .dict (canonEntries entries)
  | .null => .null
  | .undef => .undef
  | .bool b => .bool b
  | .str s => .str s
  | .date ms => .date ms
  | .data bytes => .data bytes

/-- Canonical form of each element of a list. -/
def canonList : List PValue → List PValue
  | [] => []
  | v :: vs => canon v :: canonList vs

/-- Canonical form of each value of an entry list. -/
def canonEntries : List (String × PValue) → List (String × PValue)
  | [] => []
  | (k, v) :: rest => (k, canon v) :: canonEntries rest

end

/-- Keys are pairwise distinct, as the keys of a JavaScript object are. -/
def nodupKeys : List (String × PValue) → Bool
  | [] => true
  | (k, _) :: rest => !rest.any (fun p => p.1 = k) && nodupKeys rest

mutual

/-- The value is representable as a JavaScript runtime value fed to the
writer: no `undefined`, dictionary keys distinct (a JavaScript object cannot
hold duplicate keys), every byte below 256 (`Uint8Array` contents), and every
finite machine number dyadic (every finite IEEE double is). -/
def Representable : PValue → Bool
  | .null => true
  | .undef => false
  | .bool _ => true
  | .str _ => true
  | .num (.num x) => x.den == 2 ^ twoVal x.den
  | .num _ => true
  | .bigint _ => true
  | .date _ => true
  | .data bytes => bytes.all (fun b => decide (b < 256))
  | .arr items => representableList items
  | .dict entries => nodupKeys entries && representableEntries entries

/-- Every element of the list is representable. -/
def representableList : List PValue → Bool
  | [] => true
  | v :: vs => Representable v && representableList vs

/-- Every value of the entry list is representable. -/
def representableEntries : List (String × PValue) → Bool
  | [] => true
  | (_, v) :: rest => Representable v && representableEntries rest

end

/-- Whether a value is `null` or `undefined` (the two cases the writer turns
into an absent element). -/
def isNullish : PValue → Bool
  | .null => true
  | .undef => true
  | _ => false

mutual

/-- No `Null` (and no `undefined`) occurs nested inside an array or a
dictionary. -/
def noNestedNull : PValue → Bool
  | .arr items => noNestedNullList items
  | .dict entries => noNestedNullEntries entries
  | _ => true

/-- No element of the list is `null`/`undefined`, recursively. -/
def noNestedNullList : List PValue → Bool
  | [] => true
  | v :: vs => !isNullish v && noNestedNull v && noNestedNullList vs

/-- No value of the entry list is `null`/`undefined`, recursively. -/
def noNestedNullEntries : List (String × PValue) → Bool
  | [] => true
  | (_, v) :: rest => !isNullish v && noNestedNull v && noNestedNullEntries rest

end

/-- A finite machine number whose host rendering keeps the read-back value
structurally equal to it: a safe integer (its shortest rendering is its exact
digit string, and `Number` of that string is safe again), or a fractional
value in the positional rendering range (reread exactly by `parseFloat`).
Excluded are integral values beyond `2^53 - 1` — reread through `BigInt` of a
shortest decimal rendering that need not spell the exact integer, and, at
`10^21` and beyond, rendered exponentially so that `BigInt` throws — and
fractional values the host renders exponentially. -/
def numFaithful (q : ℚ) : Bool :=
  if q.den == 1 then decide (q.num.natAbs ≤ maxSafeInt) else !jsExpRender q

mutual

/-- Every finite machine number nested in the value is `numFaithful`. -/
def faithfulNums : PValue → Bool
  | .num (.num x) => numFaithful x
  | .arr items => faithfulNumsList items
  | .dict entries => faithfulNumsEntries entries
  | _ => true

/-- Every element of the list has only `numFaithful` machine numbers. -/
def faithfulNumsList : List PValue → Bool
  | [] => true
  | v :: vs => faithfulNums v && faithfulNumsList vs

/-- Every value of the entry list has only `numFaithful` machine numbers. -/
def faithfulNumsEntries : List (String × PValue) → Bool
  | [] => true
  | (_, v) :: rest => faithfulNums v && faithfulNumsEntries rest

end

/-- Decimal digits with an optional single fraction part: the shape named
"decimal floating-point string" by the spec (§4.2 rule 5), formalized from the
spec's words to check the writer's output against. -/
def decimalBodyChars (ds : List Char) : Bool :=
  let ip := ds.takeWhile Char.isDigit
  let r := ds.dropWhile Char.isDigit
  match r with
  | [] => !ip.isEmpty
  | c :: fp => c = '.' && !ip.isEmpty && !fp.isEmpty && fp.all Char.isDigit

/-- The spec's "decimal floating-point string": an optional minus sign,
digits, and an optional fraction — no exponent, no `NaN`, no `Infinity`. -/
def isDecimalFloatString (s : String) : Bool :=
  match s.data with
  | [] => false
  | c :: rest => if c = '-' then decimalBodyChars rest else decimalBodyChars (c :: rest)

/-- The spec's "decimal integer string": an optional minus sign followed by
decimal digits only. -/
def isDecimalIntString (s : String) : Bool :=
  match s.data with
  | [] => false
  | c :: rest =>
    if c = '-' then !rest.isEmpty && rest.all Char.isDigit
    else (c :: rest).all Char.isDigit

theorem natDigitsAux_eq_digits : ∀ fuel n, n ≤ fuel → natDigitsAux fuel n = Nat.digits 10 n := by
  intro fuel
  induction fuel with
  | zero =>
    intro n hn
    interval_cases n
    rw [Nat.digits_zero]
    simp [natDigitsAux]
  | succ fuel ih =>
    intro n hn
    cases n with
    | zero =>
      rw [Nat.digits_zero]
      simp [natDigitsAux]
    | succ m =>
      have hstep : natDigitsAux (fuel + 1) (m + 1) =
          (m + 1) % 10 :: natDigitsAux fuel ((m + 1) / 10) := rfl
      rw [hstep, Nat.digits_def' (by norm_num) (Nat.succ_pos m)]
      congr 1
      exact ih _ (by omega)

theorem natDigits_eq : ∀ n, natDigits n = Nat.digits 10 n :=
  fun n => natDigitsAux_eq_digits n n le_rfl

theorem digitChar_toNat {d : Nat} (hd : d < 10) : (digitChar d).toNat = 48 + d := by
  interval_cases d <;> rfl

theorem digitChar_isDigit {d : Nat} (hd : d < 10) : (digitChar d).isDigit = true := by
  interval_cases d <;> rfl

theorem digitsVal_append (l₁ l₂ : List Char) :
    digitsVal (l₁ ++ l₂) =
      l₂.foldl (fun acc c => acc * 10 + (c.toNat - 48)) (digitsVal l₁) := by
  simp [digitsVal, List.foldl_append]

theorem digitsVal_rev_map : ∀ ds : List Nat, (∀ d ∈ ds, d < 10) →
    digitsVal ((ds.map digitChar).reverse) = Nat.ofDigits 10 ds := by
  intro ds
  induction ds with
  | nil => intro _; rfl
  | cons d tail ih =>
    intro h
    have hd : d < 10 := h d (List.mem_cons_self d tail)
    have htail : ∀ x ∈ tail, x < 10 := fun x hx => h x (List.mem_cons_of_mem d hx)
    simp only [List.map_cons, List.reverse_cons]
    rw [digitsVal_append, Nat.ofDigits_cons]
    simp only [List.foldl_cons, List.foldl_nil, digitChar_toNat hd]
    rw [ih htail]
    omega

theorem digitsVal_natToChars (n : Nat) : digitsVal (natToChars n) = n := by
  by_cases h : n = 0
  · subst h; rfl
  · rw [natToChars, if_neg h, natDigits_eq,
      digitsVal_rev_map _ (fun d hd => Nat.digits_lt_base (by norm_num) hd),
      Nat.ofDigits_digits]

theorem natToChars_all_digit (n : Nat) : ∀ c ∈ natToChars n, c.isDigit = true := by
  intro c hc
  by_cases h : n = 0
  · subst h
    rcases List.mem_singleton.mp (by simpa [natToChars] using hc) with rfl
    rfl
  · rw [natToChars, if_neg h] at hc
    rw [List.mem_reverse, List.mem_map] at hc
    obtain ⟨d, hd, rfl⟩ := hc
    rw [natDigits_eq] at hd
    exact digitChar_isDigit (Nat.digits_lt_base (by norm_num) hd)

theorem natToChars_ne_nil (n : Nat) : natToChars n ≠ [] := by
  by_cases h : n = 0
  · subst h; simp [natToChars]
  · rw [natToChars, if_neg h]
    simp only [ne_eq, List.reverse_eq_nil_iff, List.map_eq_nil_iff]
    rw [natDigits_eq]
    exact Nat.digits_ne_nil_iff_ne_zero.mpr h

theorem digitsVal_padZeros (width : Nat) (cs : List Char) :
    digitsVal (padZeros width cs) = digitsVal cs := by
  rw [padZeros, digitsVal_append]
  have : digitsVal (List.replicate (width - cs.length) '0') = 0 := by
    induction width - cs.length with
    | zero => rfl
    | succ k ih =>
      rw [List.replicate_succ]
      simpa [digitsVal] using ih
  rw [this]
  rfl

theorem padZeros_length {width : Nat} {cs : List Char} (h : cs.length ≤ width) :
    (padZeros width cs).length = width := by
  simp [padZeros]
  omega

theorem padZeros_all_digit (width : Nat) (cs : List Char)
    (h : ∀ c ∈ cs, c.isDigit = true) : ∀ c ∈ padZeros width cs, c.isDigit = true := by
  intro c hc
  rw [padZeros, List.mem_append] at hc
  rcases hc with hc | hc
  · rw [List.eq_of_mem_replicate hc]; rfl
  · exact h c hc

theorem natToChars_length_le {n width : Nat} (h : n < 10 ^ width) (hw : 0 < width) :
    (natToChars n).length ≤ width := by
  by_cases h0 : n = 0
  · subst h0; simpa [natToChars] using hw
  · rw [natToChars, if_neg h0, List.length_reverse, List.length_map, natDigits_eq,
      Nat.digits_len 10 n (by norm_num) h0]
    have := Nat.log_lt_of_lt_pow h0 h
    omega

theorem takeWhile_all_append {α : Type} (p : α → Bool) (xs : List α) (y : α) (ys : List α)
    (hxs : ∀ c ∈ xs, p c = true) (hy : p y = false) :
    (xs ++ y :: ys).takeWhile p = xs ∧ (xs ++ y :: ys).dropWhile p = y :: ys := by
  induction xs with
  | nil => simp [List.takeWhile, List.dropWhile, hy]
  | cons x xs ih =>
    have hx : p x = true := hxs x (List.mem_cons_self x xs)
    have ih' := ih (fun c hc => hxs c (List.mem_cons_of_mem x hc))
    simp only [List.cons_append, List.takeWhile_cons, List.dropWhile_cons, hx, if_true]
    exact ⟨by rw [ih'.1], by rw [ih'.2]⟩

theorem dropWhile_of_head_neg {α : Type} {p : α → Bool} :
    ∀ {l : List α}, (∀ c ∈ l, p c = false) → l.dropWhile p = l
  | [], _ => rfl
  | c :: cs, h => by
    simp [List.dropWhile_cons, h c (List.mem_cons_self c cs)]

theorem trimWs_of_no_ws {cs : List Char} (h : ∀ c ∈ cs, isJsWs c = false) :
    trimWs cs = cs := by
  rw [trimWs, dropWhile_of_head_neg h, dropWhile_of_head_neg (by simpa using h),
    List.reverse_reverse]

theorem takeWhile_of_all {α : Type} {p : α → Bool} {l : List α}
    (h : ∀ c ∈ l, p c = true) : l.takeWhile p = l :=
  List.takeWhile_eq_self_iff.mpr h

theorem dropWhile_of_all {α : Type} {p : α → Bool} {l : List α}
    (h : ∀ c ∈ l, p c = true) : l.dropWhile p = [] :=
  List.dropWhile_eq_nil_iff.mpr h

theorem isDigit_toNat_bounds {c : Char} (h : c.isDigit = true) :
    48 ≤ c.toNat ∧ c.toNat ≤ 57 := by
  simp only [Char.isDigit, Bool.and_eq_true, decide_eq_true_eq] at h
  exact h

theorem digit_not_ws {c : Char} (h : c.isDigit = true) : isJsWs c = false := by
  have hb := isDigit_toNat_bounds h
  rw [isJsWs, decide_eq_false_iff_not]
  intro hmem
  simp only [List.mem_cons, List.not_mem_nil, or_false] at hmem
  omega

theorem intToChars_no_ws (n : Int) : ∀ c ∈ intToChars n, isJsWs c = false := by
  intro c hc
  rw [intToChars] at hc
  by_cases hn : n < 0
  · rw [if_pos hn] at hc
    rcases List.mem_cons.mp hc with rfl | hc
    · rfl
    · exact digit_not_ws (natToChars_all_digit _ c hc)
  · rw [if_neg hn] at hc
    exact digit_not_ws (natToChars_all_digit _ c hc)

theorem digit_toNat_ne {c c' : Char} (h : c.isDigit = true)
    (h' : c'.toNat < 48 ∨ 57 < c'.toNat) : c ≠ c' := by
  have hb := isDigit_toNat_bounds h
  intro hh
  subst hh
  omega

theorem parseRadix_cons_ne_zero {c : Char} {rest : List Char} (h : c ≠ '0') :
    parseRadix (c :: rest) = none := by
  unfold parseRadix
  split
  next heq => injection heq with h1 _; exact absurd h1 h
  next => rfl

theorem parseDecimalCore_digits {ds : List Char} (hne : ds ≠ [])
    (h : ∀ c ∈ ds, c.isDigit = true) :
    parseDecimalCore ds = some (((digitsVal ds : ℕ) : ℚ), []) := by
  obtain ⟨c, cs, rfl⟩ := List.exists_cons_of_ne_nil hne
  simp only [parseDecimalCore]
  rw [takeWhile_of_all h, dropWhile_of_all h]
  rfl

theorem parseDecimalWithExp_digits {ds : List Char} (hne : ds ≠ [])
    (h : ∀ c ∈ ds, c.isDigit = true) :
    parseDecimalWithExp ds = some (((digitsVal ds : ℕ) : ℚ), []) := by
  simp only [parseDecimalWithExp]
  rw [parseDecimalCore_digits hne h]
  rfl

theorem splitSign_minus (cs : List Char) : splitSign ('-' :: cs) = (true, cs) := by
  simp [splitSign]

theorem splitSign_not_sign {c : Char} (cs : List Char) (h1 : c ≠ '-') (h2 : c ≠ '+') :
    splitSign (c :: cs) = (false, c :: cs) := by
  simp [splitSign, h1, h2]

theorem splitSign_digit {c : Char} (cs : List Char) (h : c.isDigit = true) :
    splitSign (c :: cs) = (false, c :: cs) :=
  splitSign_not_sign cs (digit_toNat_ne h (by left; decide))
    (digit_toNat_ne h (by left; decide))

theorem digit_cons_ne_infinity {c : Char} {cs : List Char} (h : c.isDigit = true) :
    ((c :: cs : List Char) = infinityChars) = False := by
  simp only [eq_iff_iff, iff_false]
  intro hh
  rw [infinityChars] at hh
  have : c = 'I' := by injection hh
  exact digit_toNat_ne h (by right; decide) this

theorem digit_cons_take_ne_infinity {c : Char} {cs : List Char} (h : c.isDigit = true) :
    ((c :: cs : List Char).take 8 = infinityChars) = False := by
  simp only [List.take_succ_cons, eq_iff_iff, iff_false]
  intro hh
  rw [infinityChars] at hh
  have : c = 'I' := by injection hh
  exact digit_toNat_ne h (by right; decide) this

theorem parseRadix_all_digits {cs : List Char} (h : ∀ c ∈ cs, c.isDigit = true) :
    parseRadix cs = none := by
  unfold parseRadix
  split
  next c2 ds =>
    have hc2 : c2.isDigit = true := h c2 (by simp)
    rw [if_neg, if_neg, if_neg]
    · exact not_or.mpr ⟨digit_toNat_ne hc2 (by right; decide),
        digit_toNat_ne hc2 (by right; decide)⟩
    · exact not_or.mpr ⟨digit_toNat_ne hc2 (by right; decide),
        digit_toNat_ne hc2 (by right; decide)⟩
    · exact not_or.mpr ⟨digit_toNat_ne hc2 (by right; decide),
        digit_toNat_ne hc2 (by right; decide)⟩
  next => rfl

theorem jsToBigInt_intToString (n : Int) : jsToBigInt (intToString n) = some n := by
  have hnw := intToChars_no_ws n
  have hdata : (intToString n).data = intToChars n := rfl
  simp only [jsToBigInt, hdata, trimWs_of_no_ws hnw]
  by_cases hn : n < 0
  · rw [intToChars, if_pos hn]
    have hall := natToChars_all_digit n.natAbs
    have hne := natToChars_ne_nil n.natAbs
    obtain ⟨c, cs, hcs⟩ := List.exists_cons_of_ne_nil hne
    rw [hcs]
    simp only [List.isEmpty_cons, Bool.false_eq_true, if_false,
      parseRadix_cons_ne_zero (show '-' ≠ '0' by decide), splitSign_minus]
    have hAll : (c :: cs).all Char.isDigit = true := by
      rw [List.all_eq_true]; intro x hx; exact hall x (hcs ▸ hx)
    simp only [List.isEmpty_cons, Bool.not_false, hAll, Bool.and_self, if_true,
      Bool.false_eq_true, if_false]
    rw [← hcs, digitsVal_natToChars]
    simp only [Option.some.injEq]
    omega
  · rw [intToChars, if_neg hn]
    have hall := natToChars_all_digit n.natAbs
    have hne := natToChars_ne_nil n.natAbs
    have hrad : parseRadix (natToChars n.natAbs) = none := parseRadix_all_digits hall
    obtain ⟨c, cs, hcs⟩ := List.exists_cons_of_ne_nil hne
    have hcd : c.isDigit = true := hall c (hcs ▸ List.mem_cons_self c cs)
    rw [hcs]
    simp only [List.isEmpty_cons, Bool.false_eq_true, if_false, ← hcs, hrad]
    rw [hcs, splitSign_digit cs hcd]
    have hAll : (c :: cs).all Char.isDigit = true := by
      rw [List.all_eq_true]; intro x hx; exact hall x (hcs ▸ hx)
    simp only [List.isEmpty_cons, Bool.not_false, hAll, Bool.and_self, if_true,
      Bool.false_eq_true, if_false]
    rw [← hcs, digitsVal_natToChars]
    simp only [Option.some.injEq]
    omega

theorem jsToBigInt_some_imp_number {s : String} {n : Int} (h : jsToBigInt s = some n) :
    jsToNumber s = .num ((n : ℤ) : ℚ) := by
  rw [jsToBigInt] at h
  rw [jsToNumber]
  by_cases hE : (trimWs s.data).isEmpty
  · rw [if_pos hE] at h
    rw [if_pos hE]
    have h0 : (0 : ℤ) = n := by injection h
    rw [← h0]
    norm_num
  · rw [if_neg hE] at h
    rw [if_neg hE]
    generalize hpr : parseRadix (trimWs s.data) = pr at h ⊢
    cases pr with
    | some o =>
      cases o with
      | some v =>
        dsimp only [] at h ⊢
        have hv : ((v : ℕ) : ℤ) = n := by injection h
        rw [← hv]
        norm_num
      | none =>
        dsimp only [] at h
        exact absurd h (by simp)
    | none =>
      dsimp only [] at h ⊢
      by_cases hcond : (!(splitSign (trimWs s.data)).2.isEmpty &&
          (splitSign (trimWs s.data)).2.all Char.isDigit) = true
      · rw [if_pos hcond] at h
        rw [Bool.and_eq_true] at hcond
        obtain ⟨hne', hdig⟩ := hcond
        have hne2 : (splitSign (trimWs s.data)).2 ≠ [] := by
          intro hnil
          rw [hnil] at hne'
          exact absurd hne' (by decide)
        have hall : ∀ c ∈ (splitSign (trimWs s.data)).2, c.isDigit = true :=
          fun c hc => List.all_eq_true.mp hdig c hc
        obtain ⟨c, cs, hcs⟩ := List.exists_cons_of_ne_nil hne2
        have hcd : c.isDigit = true := hall c (hcs ▸ List.mem_cons_self c cs)
        have hinf : ¬ (splitSign (trimWs s.data)).2 = infinityChars := by
          rw [hcs]
          intro hh
          have hcI : c = 'I' := by rw [infinityChars] at hh; injection hh
          exact absurd hcI (digit_toNat_ne hcd (by right; decide))
        rw [if_neg hinf, parseDecimalWithExp_digits hne2 hall]
        dsimp only [] at h ⊢
        generalize hsg : (splitSign (trimWs s.data)).1 = sg at h ⊢
        cases sg with
        | true =>
          simp only [if_true] at h ⊢
          have hv : -((digitsVal (splitSign (trimWs s.data)).2 : ℕ) : ℤ) = n := by
            injection h
          rw [← hv]
          norm_num
        | false =>
          simp only [Bool.false_eq_true, if_false] at h ⊢
          have hv : ((digitsVal (splitSign (trimWs s.data)).2 : ℕ) : ℤ) = n := by
            injection h
          rw [← hv]
          norm_num
      · rw [if_neg hcond] at h
        exact absurd h (by simp)

theorem jsToNumber_intToString (n : Int) : jsToNumber (intToString n) = .num ((n : ℤ) : ℚ) :=
  jsToBigInt_some_imp_number (jsToBigInt_intToString n)

theorem jsToNumber_nan_bigint {s : String} (h : jsToNumber s = .nan) :
    jsToBigInt s = none := by
  cases hb : jsToBigInt s with
  | none => rfl
  | some m =>
    rw [jsToBigInt_some_imp_number hb] at h
    exact JSNum.noConfusion h

theorem jsIsSafeInteger_intCast (n : Int) :
    jsIsSafeInteger (.num ((n : ℤ) : ℚ)) = decide (n.natAbs ≤ maxSafeInt) := by
  simp [jsIsSafeInteger, Rat.den_intCast, Rat.num_intCast]

theorem readInt_intToString (n : Int) :
    readInt (intToString n) =
      .ok (if n.natAbs ≤ maxSafeInt then .num (.num ((n : ℤ) : ℚ)) else .bigint n) := by
  rw [readInt, jsToNumber_intToString, jsIsSafeInteger_intCast]
  by_cases hle : n.natAbs ≤ maxSafeInt
  · simp [hle]
  · simp [hle, jsToBigInt_intToString]

theorem dropWhile_cons_false {α : Type} {p : α → Bool} {x : α} (xs : List α)
    (h : p x = false) : (x :: xs).dropWhile p = x :: xs := by
  simp [List.dropWhile_cons, h]

theorem parseDecimalCore_fraction {ipc fpc : List Char} (hip_ne : ipc ≠ [])
    (hip : ∀ c ∈ ipc, c.isDigit = true) (hfp : ∀ c ∈ fpc, c.isDigit = true) :
    parseDecimalCore (ipc ++ '.' :: fpc) =
      some (mkRat ((digitsVal ipc * 10 ^ fpc.length + digitsVal fpc : ℕ) : ℤ)
        (10 ^ fpc.length), []) := by
  obtain ⟨c0, cs0, rfl⟩ := List.exists_cons_of_ne_nil hip_ne
  simp only [parseDecimalCore]
  have h1 := takeWhile_all_append Char.isDigit (c0 :: cs0) '.' fpc hip (by decide)
  rw [h1.1, h1.2]
  dsimp only []
  rw [if_pos rfl, takeWhile_of_all hfp, dropWhile_of_all hfp]
  simp [List.isEmpty_cons]

theorem parseDecimalWithExp_fraction {ipc fpc : List Char} (hip_ne : ipc ≠ [])
    (hip : ∀ c ∈ ipc, c.isDigit = true) (hfp : ∀ c ∈ fpc, c.isDigit = true) :
    parseDecimalWithExp (ipc ++ '.' :: fpc) =
      some (mkRat ((digitsVal ipc * 10 ^ fpc.length + digitsVal fpc : ℕ) : ℤ)
        (10 ^ fpc.length), []) := by
  simp only [parseDecimalWithExp]
  rw [parseDecimalCore_fraction hip_ne hip hfp]
  rfl

theorem jsParseFloat_intToString (n : Int) :
    jsParseFloat (intToString n) = .num ((n : ℤ) : ℚ) := by
  have hdata : (intToString n).data = intToChars n := rfl
  rw [jsParseFloat, hdata]
  by_cases hn : n < 0
  · rw [intToChars, if_pos hn, dropWhile_cons_false _ (by decide), splitSign_minus]
    have hall := natToChars_all_digit n.natAbs
    obtain ⟨c, cs, hcs⟩ := List.exists_cons_of_ne_nil (natToChars_ne_nil n.natAbs)
    have hcd : c.isDigit = true := hall c (hcs ▸ List.mem_cons_self c cs)
    have hinf : ¬ (natToChars n.natAbs).take 8 = infinityChars := by
      rw [hcs]
      exact fun hh => (digit_cons_take_ne_infinity hcd).mp hh
    rw [if_neg hinf,
      parseDecimalWithExp_digits (natToChars_ne_nil n.natAbs) hall,
      digitsVal_natToChars]
    show JSNum.num (if true = true then -((n.natAbs : ℕ) : ℚ) else ((n.natAbs : ℕ) : ℚ)) =
      JSNum.num ((n : ℤ) : ℚ)
    rw [if_pos rfl]
    congr 1
    rw [Int.cast_natAbs, abs_of_neg hn]
    push_cast
    ring
  · rw [intToChars, if_neg hn]
    have hall := natToChars_all_digit n.natAbs
    obtain ⟨c, cs, hcs⟩ := List.exists_cons_of_ne_nil (natToChars_ne_nil n.natAbs)
    have hcd : c.isDigit = true := hall c (hcs ▸ List.mem_cons_self c cs)
    have hws : isJsWs c = false := digit_not_ws hcd
    rw [hcs, dropWhile_cons_false _ hws, splitSign_digit cs hcd]
    have hinf : ¬ ((c :: cs : List Char)).take 8 = infinityChars :=
      fun hh => (digit_cons_take_ne_infinity hcd).mp hh
    rw [if_neg hinf, ← hcs,
      parseDecimalWithExp_digits (natToChars_ne_nil n.natAbs) hall,
      digitsVal_natToChars]
    show JSNum.num (if false = true then -((n.natAbs : ℕ) : ℚ) else ((n.natAbs : ℕ) : ℚ)) =
      JSNum.num ((n : ℤ) : ℚ)
    rw [if_neg (by decide)]
    congr 1
    rw [Int.cast_natAbs, abs_of_nonneg (not_lt.mp hn)]

theorem jsParseFloat_qRenderPositional {q : ℚ} (hdy : q.den = 2 ^ twoVal q.den) :
    jsParseFloat (qRenderPositional q) = .num q := by
  simp only [qRenderPositional]
  set e := max (twoVal q.den) (fiveVal q.den) with he
  set m : ℤ := q.num * ((10 ^ e / q.den : ℕ) : ℤ) with hm
  have hdvdN : q.den ∣ 10 ^ e := by
    have h2e : (2 : ℕ) ^ twoVal q.den ∣ 2 ^ e :=
      pow_dvd_pow 2 (by rw [he]; exact le_max_left _ _)
    have h10 : (2 : ℕ) ^ e ∣ 10 ^ e := pow_dvd_pow_of_dvd (by norm_num) e
    rw [hdy]
    exact h2e.trans h10
  have hden0 : ((q.den : ℕ) : ℚ) ≠ 0 := by
    exact_mod_cast q.den_nz
  have hqden : q * ((q.den : ℕ) : ℚ) = ((q.num : ℤ) : ℚ) := by
    nth_rewrite 1 [← Rat.num_div_den q]
    exact div_mul_cancel₀ _ hden0
  have hNatCancel : (10 ^ e / q.den) * q.den = 10 ^ e := Nat.div_mul_cancel hdvdN
  have hmulZ : m * ((q.den : ℕ) : ℤ) = q.num * 10 ^ e := by
    rw [hm]
    have hInt : ((10 ^ e / q.den : ℕ) : ℤ) * ((q.den : ℕ) : ℤ) = ((10 ^ e : ℕ) : ℤ) := by
      rw [← Nat.cast_mul, hNatCancel]
    calc q.num * ((10 ^ e / q.den : ℕ) : ℤ) * ((q.den : ℕ) : ℤ)
        = q.num * (((10 ^ e / q.den : ℕ) : ℤ) * ((q.den : ℕ) : ℤ)) := by ring
      _ = q.num * ((10 ^ e : ℕ) : ℤ) := by rw [hInt]
      _ = q.num * 10 ^ e := by push_cast; ring
  have hmul : ((m : ℤ) : ℚ) * ((q.den : ℕ) : ℚ) = ((q.num : ℤ) : ℚ) * (10 : ℚ) ^ e := by
    exact_mod_cast congrArg (fun z : ℤ => ((z : ℤ) : ℚ)) hmulZ
  have h10q : ((10 : ℚ)) ^ e ≠ 0 := by positivity
  have hq_eq : ((m : ℤ) : ℚ) = q * (10 : ℚ) ^ e := by
    have h2 : (q * (10 : ℚ) ^ e) * ((q.den : ℕ) : ℚ) = ((q.num : ℤ) : ℚ) * (10 : ℚ) ^ e := by
      calc (q * (10 : ℚ) ^ e) * ((q.den : ℕ) : ℚ)
          = (q * ((q.den : ℕ) : ℚ)) * (10 : ℚ) ^ e := by ring
        _ = ((q.num : ℤ) : ℚ) * (10 : ℚ) ^ e := by rw [hqden]
    exact mul_right_cancel₀ hden0 (hmul.trans h2.symm)
  have hq2 : ((m : ℤ) : ℚ) / (10 : ℚ) ^ e = q := by
    rw [hq_eq]
    field_simp
  by_cases he0 : e = 0
  · rw [if_pos he0]
    rw [jsParseFloat_intToString]
    congr 1
    rw [← hq2, he0]
    norm_num
  · rw [if_neg he0]
    set a := m.natAbs with ha
    set ipc := natToChars (a / 10 ^ e) with hip
    set fpc := padZeros e (natToChars (a % 10 ^ e)) with hfp
    have hip_ne : ipc ≠ [] := natToChars_ne_nil _
    have hip_dig : ∀ c ∈ ipc, c.isDigit = true := natToChars_all_digit _
    have hfp_dig : ∀ c ∈ fpc, c.isDigit = true :=
      padZeros_all_digit e _ (natToChars_all_digit _)
    have hfp_len : fpc.length = e := by
      rw [hfp]
      exact padZeros_length (natToChars_length_le
        (Nat.mod_lt a (pow_pos (by norm_num) e)) (Nat.pos_of_ne_zero he0))
    have hfp_val : digitsVal fpc = a % 10 ^ e := by
      rw [hfp, digitsVal_padZeros, digitsVal_natToChars]
    have hip_val : digitsVal ipc = a / 10 ^ e := by
      rw [hip, digitsVal_natToChars]
    have hsum : digitsVal ipc * 10 ^ fpc.length + digitsVal fpc = a := by
      rw [hip_val, hfp_val, hfp_len, Nat.mul_comm]
      exact Nat.div_add_mod a (10 ^ e)
    have hparse : parseDecimalWithExp (ipc ++ '.' :: fpc) =
        some (mkRat (a : ℤ) (10 ^ e), []) := by
      rw [parseDecimalWithExp_fraction hip_ne hip_dig hfp_dig, hsum, hfp_len]
    have hmk : (mkRat (a : ℤ) (10 ^ e) : ℚ) = ((a : ℕ) : ℚ) / (10 : ℚ) ^ e := by
      rw [Rat.mkRat_eq_div]
      push_cast
      ring
    obtain ⟨c0, cs0, hic⟩ := List.exists_cons_of_ne_nil hip_ne
    have hc0d : c0.isDigit = true := hip_dig c0 (hic ▸ List.mem_cons_self c0 cs0)
    have hbody : ipc ++ '.' :: fpc = c0 :: (cs0 ++ '.' :: fpc) := by
      rw [hic]
      rfl
    have hinf : ¬ (ipc ++ '.' :: fpc).take 8 = infinityChars := by
      rw [hbody]
      exact fun hh => (digit_cons_take_ne_infinity hc0d).mp hh
    rw [jsParseFloat]
    by_cases hmneg : m < 0
    · rw [if_pos hmneg]
      dsimp only []
      rw [List.append_assoc]
      have hdw : List.dropWhile isJsWs (['-'] ++ (ipc ++ '.' :: fpc)) =
          '-' :: (ipc ++ '.' :: fpc) := by
        rw [List.singleton_append]
        exact dropWhile_cons_false _ (by decide)
      rw [hdw, splitSign_minus]
      dsimp only []
      rw [if_neg hinf, hparse]
      dsimp only []
      rw [if_pos rfl]
      congr 1
      rw [hmk]
      have haq : ((a : ℕ) : ℚ) = ((-m : ℤ) : ℚ) := by
        rw [ha, Int.cast_natAbs, abs_of_neg hmneg]
      rw [haq, ← hq2]
      push_cast
      ring
    · rw [if_neg hmneg]
      dsimp only []
      rw [List.append_assoc]
      have hdw : List.dropWhile isJsWs ([] ++ (ipc ++ '.' :: fpc)) =
          ipc ++ '.' :: fpc := by
        rw [List.nil_append, hbody]
        exact dropWhile_cons_false _ (digit_not_ws hc0d)
      have hss : splitSign (ipc ++ '.' :: fpc) = (false, ipc ++ '.' :: fpc) := by
        rw [hbody]
        exact splitSign_digit _ hc0d
      rw [hdw, hss]
      dsimp only []
      rw [if_neg hinf, hparse]
      dsimp only []
      rw [if_neg (by decide)]
      congr 1
      rw [hmk]
      have haq : ((a : ℕ) : ℚ) = ((m : ℤ) : ℚ) := by
        rw [ha, Int.cast_natAbs, abs_of_nonneg (not_lt.mp hmneg)]
      rw [haq]
      exact hq2

theorem sextetChar_facts : ∀ s, s < 64 →
    charSextet (sextetChar s) = some s ∧ sextetChar s ≠ '=' ∧ isJsWs (sextetChar s) = false := by
  decide

theorem bytesToSextets_lt {bs : List Nat} (h : ∀ b ∈ bs, b < 256) :
    ∀ s ∈ bytesToSextets bs, s < 64 := by
  induction bs using bytesToSextets.induct with
  | case1 => intro s hs; cases hs
  | case2 a =>
    intro s hs
    have ha : a < 256 := h a (by simp)
    simp only [bytesToSextets, List.mem_cons, List.not_mem_nil, or_false] at hs
    rcases hs with rfl | rfl <;> omega
  | case3 a b =>
    intro s hs
    have ha : a < 256 := h a (by simp)
    have hb : b < 256 := h b (by simp)
    simp only [bytesToSextets, List.mem_cons, List.not_mem_nil, or_false] at hs
    rcases hs with rfl | rfl | rfl <;> omega
  | case4 a b c rest ih =>
    intro s hs
    have ha : a < 256 := h a (by simp)
    have hb : b < 256 := h b (by simp)
    have hc : c < 256 := h c (by simp)
    have hrest : ∀ x ∈ rest, x < 256 := fun x hx => h x (by simp [hx])
    simp only [bytesToSextets, List.mem_cons] at hs
    rcases hs with rfl | rfl | rfl | rfl | hs
    · omega
    · omega
    · omega
    · omega
    · exact ih hrest s hs

theorem mapM_charSextet {ss : List Nat} (h : ∀ s ∈ ss, s < 64) :
    (ss.map sextetChar).mapM charSextet = some ss := by
  induction ss with
  | nil => rfl
  | cons s tail ih =>
    have hs := (sextetChar_facts s (h s (List.mem_cons_self s tail))).1
    have htail := ih (fun x hx => h x (List.mem_cons_of_mem s hx))
    simp only [List.map_cons, List.mapM_cons, hs, htail, Option.pure_def, Option.bind_some]
    rfl

theorem sextetsToBytes_bytesToSextets {bs : List Nat} (h : ∀ b ∈ bs, b < 256) :
    sextetsToBytes (bytesToSextets bs) = some bs := by
  induction bs using bytesToSextets.induct with
  | case1 => rfl
  | case2 a =>
    have ha : a < 256 := h a (by simp)
    show some [a / 4 * 4 + a % 4 * 16 / 16] = some [a]
    simp only [Option.some.injEq, List.cons.injEq, and_true]
    omega
  | case3 a b =>
    have ha : a < 256 := h a (by simp)
    have hb : b < 256 := h b (by simp)
    show some [a / 4 * 4 + (a % 4 * 16 + b / 16) / 16,
      (a % 4 * 16 + b / 16) % 16 * 16 + b % 16 * 4 / 4] = some [a, b]
    simp only [Option.some.injEq, List.cons.injEq, and_true]
    constructor <;> omega
  | case4 a b c rest ih =>
    have ha : a < 256 := h a (by simp)
    have hb : b < 256 := h b (by simp)
    have hc : c < 256 := h c (by simp)
    have hrest : ∀ x ∈ rest, x < 256 := fun x hx => h x (by simp [hx])
    show (sextetsToBytes (bytesToSextets rest)).map _ = some (a :: b :: c :: rest)
    rw [ih hrest]
    show some ((a / 4 * 4 + (a % 4 * 16 + b / 16) / 16) ::
      ((a % 4 * 16 + b / 16) % 16 * 16 + (b % 16 * 4 + c / 64) / 4) ::
      ((b % 16 * 4 + c / 64) % 4 * 64 + c % 64) :: rest) = some (a :: b :: c :: rest)
    simp only [Option.some.injEq, List.cons.injEq, and_true]
    refine ⟨?_, ?_, ?_⟩ <;> omega

theorem bytesToSextets_length (bs : List Nat) :
    (bytesToSextets bs).length =
      4 * (bs.length / 3) + bs.length % 3 + (if bs.length % 3 = 0 then 0 else 1) := by
  induction bs using bytesToSextets.induct with
  | case1 => rfl
  | case2 a => simp [bytesToSextets]
  | case3 a b => simp [bytesToSextets]
  | case4 a b c rest ih =>
    show (bytesToSextets (a :: b :: c :: rest)).length = _
    have hstep : (bytesToSextets (a :: b :: c :: rest)).length =
        4 + (bytesToSextets rest).length := by
      simp [bytesToSextets]
      omega
    rw [hstep, ih]
    have h1 : (a :: b :: c :: rest).length = rest.length + 3 := by simp
    rw [h1]
    have h2 : (rest.length + 3) / 3 = rest.length / 3 + 1 := by omega
    have h3 : (rest.length + 3) % 3 = rest.length % 3 := by omega
    rw [h2, h3]
    by_cases h0 : rest.length % 3 = 0 <;> simp [h0] <;> omega

theorem map_sextetChar_no_eq {bs : List Nat} (h : ∀ b ∈ bs, b < 256) :
    ∀ c ∈ (bytesToSextets bs).map sextetChar, c ≠ '=' ∧ isJsWs c = false := by
  intro c hc
  rw [List.mem_map] at hc
  obtain ⟨s, hs, rfl⟩ := hc
  have hf := sextetChar_facts s (bytesToSextets_lt h s hs)
  exact ⟨hf.2.1, hf.2.2⟩

theorem dropTrailingEq_encode {bs : List Nat} (h : ∀ b ∈ bs, b < 256) :
    dropTrailingEq (b64encodeChars bs) = (bytesToSextets bs).map sextetChar := by
  have hlen := bytesToSextets_length bs
  have hsxlen : ((bytesToSextets bs).map sextetChar).length = (bytesToSextets bs).length :=
    List.length_map _ _
  have hno := map_sextetChar_no_eq h
  rw [b64encodeChars, b64PadChars]
  have h3 : bs.length % 3 = 0 ∨ bs.length % 3 = 1 ∨ bs.length % 3 = 2 := by omega
  rcases h3 with h3 | h3 | h3
  · rw [if_neg (by omega), if_neg (by omega), List.append_nil]
    rw [dropTrailingEq]
    rw [if_pos (by rw [hsxlen, hlen, h3]; simp; try omega)]
    rcases hbs : (bytesToSextets bs).map sextetChar with _ | ⟨c1, r1⟩
    · rfl
    · have hrevne : (c1 :: r1).reverse ≠ [] := by simp
      obtain ⟨d1, rr1, hdr⟩ := List.exists_cons_of_ne_nil hrevne
      have hd1 : d1 ≠ '=' := by
        have : d1 ∈ (bytesToSextets bs).map sextetChar := by
          rw [hbs, ← List.mem_reverse, hdr]
          exact List.mem_cons_self _ _
        exact (hno d1 this).1
      rw [hdr]
      cases rr1 with
      | nil =>
        dsimp only []
        rw [if_neg hd1]
      | cons d2 rr2 =>
        dsimp only []
        rw [if_neg hd1]
  · rw [if_pos h3]
    rw [dropTrailingEq]
    rw [if_pos (by
      rw [List.length_append, hsxlen, hlen, h3]
      simp
      try omega)]
    have hrev : (((bytesToSextets bs).map sextetChar) ++ ['=', '=']).reverse =
        '=' :: '=' :: ((bytesToSextets bs).map sextetChar).reverse := by
      rw [List.reverse_append]
      rfl
    rw [hrev]
    dsimp only []
    rw [if_pos rfl, if_pos rfl, List.reverse_reverse]
  · rw [if_neg (by omega), if_pos h3]
    rw [dropTrailingEq]
    rw [if_pos (by
      rw [List.length_append, hsxlen, hlen, h3]
      simp
      try omega)]
    have hrev : (((bytesToSextets bs).map sextetChar) ++ ['=']).reverse =
        '=' :: ((bytesToSextets bs).map sextetChar).reverse := by
      rw [List.reverse_append]
      rfl
    rw [hrev]
    have hne : (bytesToSextets bs).map sextetChar ≠ [] := by
      intro hn
      rw [hn] at hsxlen
      simp at hsxlen
      omega
    have hrevne : ((bytesToSextets bs).map sextetChar).reverse ≠ [] := by
      simpa using hne
    obtain ⟨d1, rr1, hdr⟩ := List.exists_cons_of_ne_nil hrevne
    have hd1 : d1 ≠ '=' := by
      have : d1 ∈ (bytesToSextets bs).map sextetChar := by
        rw [← List.mem_reverse, hdr]
        exact List.mem_cons_self _ _
      exact (hno d1 this).1
    rw [hdr]
    dsimp only []
    rw [if_pos rfl, if_neg hd1, ← hdr, List.reverse_reverse]

theorem b64decodeChars_encode {bs : List Nat} (h : ∀ b ∈ bs, b < 256) :
    b64decodeChars (b64encodeChars bs) = some bs := by
  have hlen := bytesToSextets_length bs
  have hsxlen : ((bytesToSextets bs).map sextetChar).length = (bytesToSextets bs).length :=
    List.length_map _ _
  simp only [b64decodeChars]
  rw [dropTrailingEq_encode h]
  rw [if_neg (by rw [hsxlen, hlen]; by_cases h0 : bs.length % 3 = 0 <;> (simp [h0]; try omega))]
  rw [mapM_charSextet (bytesToSextets_lt h)]
  exact sextetsToBytes_bytesToSextets h

theorem b64decodeData_encode {bs : List Nat} (h : ∀ b ∈ bs, b < 256) :
    b64decodeData (b64encode bs) = some bs := by
  rw [b64decodeData]
  have hdata : (b64encode bs).data = b64encodeChars bs := rfl
  rw [hdata]
  have hfil : (b64encodeChars bs).filter (fun c => !isJsWs c) = b64encodeChars bs := by
    rw [List.filter_eq_self]
    intro c hc
    rw [b64encodeChars, List.mem_append] at hc
    rcases hc with hc | hc
    · rw [Bool.not_eq_true', (map_sextetChar_no_eq h c hc).2]
    · rw [b64PadChars] at hc
      have hceq : c = '=' := by
        split_ifs at hc <;> simp_all
      rw [hceq]
      decide
  rw [hfil]
  exact b64decodeChars_encode h

theorem PValue.myInduction (motive : PValue → Prop)
    (hnull : motive .null) (hundef : motive .undef)
    (hbool : ∀ b, motive (.bool b)) (hstr : ∀ s, motive (.str s))
    (hnum : ∀ j, motive (.num j)) (hbigint : ∀ n, motive (.bigint n))
    (hdate : ∀ ms, motive (.date ms)) (hdata : ∀ bytes, motive (.data bytes))
    (harr : ∀ items, (∀ v ∈ items, motive v) → motive (.arr items))
    (hdict : ∀ entries, (∀ p ∈ entries, motive p.2) → motive (.dict entries)) :
    ∀ v, motive v :=
  @PValue.rec motive (fun l => ∀ v ∈ l, motive v) (fun l => ∀ p ∈ l, motive p.2)
    (fun p => motive p.2)
    hnull hundef hbool hstr hnum hbigint hdate hdata harr hdict
    (fun v h => absurd h (List.not_mem_nil v))
    (fun hd tl hhd htl v hv => by
      rcases List.mem_cons.mp hv with h | h
      · exact h ▸ hhd
      · exact htl v h)
    (fun p h => absurd h (List.not_mem_nil p))
    (fun hd tl hhd htl p hp => by
      rcases List.mem_cons.mp hp with h | h
      · exact h ▸ hhd
      · exact htl p h)
    (fun _ _ h => h)

theorem rat_intCast_of_den_one {q : ℚ} (h : q.den = 1) : ((q.num : ℤ) : ℚ) = q := by
  conv_rhs => rw [← Rat.num_div_den q, h]
  norm_num

theorem qRenderPositional_den_one {q : ℚ} (h : q.den = 1) :
    qRenderPositional q = intToString q.num := by
  rw [qRenderPositional, h]
  have h2 : twoVal 1 = 0 := rfl
  have h5 : fiveVal 1 = 0 := rfl
  rw [h2, h5]
  norm_num

theorem qRenderDecimal_not_exp {q : ℚ} (hx : jsExpRender q = false) :
    qRenderDecimal q = qRenderPositional q := by
  rw [qRenderDecimal, hx]
  rfl

theorem qRenderDecimal_den_one {q : ℚ} (h : q.den = 1) (hx : jsExpRender q = false) :
    qRenderDecimal q = intToString q.num := by
  rw [qRenderDecimal_not_exp hx, qRenderPositional_den_one h]

theorem jsExpRender_safe_int {q : ℚ} (h1 : q.den = 1) (h2 : q.num.natAbs ≤ maxSafeInt) :
    jsExpRender q = false := by
  have hms : maxSafeInt = 9007199254740991 := by norm_num [maxSafeInt]
  rw [jsExpRender, h1, Bool.or_eq_false_iff]
  constructor
  · exact decide_eq_false (by omega)
  · rw [Bool.and_eq_false_iff]
    by_cases h0 : q.num = 0
    · left
      simp [h0]
    · right
      apply decide_eq_false
      have hpos : 1 ≤ q.num.natAbs := Int.natAbs_pos.mpr h0
      omega

theorem jsParseFloat_qRender {q : ℚ} (hdy : q.den = 2 ^ twoVal q.den)
    (hx : jsExpRender q = false) : jsParseFloat (qRenderDecimal q) = .num q := by
  rw [qRenderDecimal_not_exp hx]
  exact jsParseFloat_qRenderPositional hdy

theorem faithfulNumsList_mem {items : List PValue} (h : faithfulNumsList items = true) :
    ∀ v ∈ items, faithfulNums v = true := by
  induction items with
  | nil => intro v hv; cases hv
  | cons hd tl ih =>
    rw [faithfulNumsList, Bool.and_eq_true] at h
    intro v hv
    rcases List.mem_cons.mp hv with rfl | hv
    · exact h.1
    · exact ih h.2 v hv

theorem faithfulNumsEntries_mem {entries : List (String × PValue)}
    (h : faithfulNumsEntries entries = true) : ∀ p ∈ entries, faithfulNums p.2 = true := by
  induction entries with
  | nil => intro p hp; cases hp
  | cons hd tl ih =>
    obtain ⟨k, v⟩ := hd
    rw [faithfulNumsEntries, Bool.and_eq_true] at h
    intro p hp
    rcases List.mem_cons.mp hp with rfl | hp
    · exact h.1
    · exact ih h.2 p hp

theorem representableList_mem {items : List PValue} (h : representableList items = true) :
    ∀ v ∈ items, Representable v = true := by
  induction items with
  | nil => intro v hv; cases hv
  | cons hd tl ih =>
    rw [representableList, Bool.and_eq_true] at h
    intro v hv
    rcases List.mem_cons.mp hv with rfl | hv
    · exact h.1
    · exact ih h.2 v hv

theorem representableEntries_mem {entries : List (String × PValue)}
    (h : representableEntries entries = true) : ∀ p ∈ entries, Representable p.2 = true := by
  induction entries with
  | nil => intro p hp; cases hp
  | cons hd tl ih =>
    obtain ⟨k, v⟩ := hd
    rw [representableEntries, Bool.and_eq_true] at h
    intro p hp
    rcases List.mem_cons.mp hp with rfl | hp
    · exact h.1
    · exact ih h.2 p hp

theorem noNestedNullList_mem {items : List PValue} (h : noNestedNullList items = true) :
    ∀ v ∈ items, v ≠ .null ∧ v ≠ .undef ∧ noNestedNull v = true := by
  induction items with
  | nil => intro v hv; cases hv
  | cons hd tl ih =>
    rw [noNestedNullList, Bool.and_eq_true, Bool.and_eq_true] at h
    intro v hv
    rcases List.mem_cons.mp hv with rfl | hv
    · refine ⟨?_, ?_, h.1.2⟩
      · rintro rfl
        exact absurd h.1.1 (by decide)
      · rintro rfl
        exact absurd h.1.1 (by decide)
    · exact ih h.2 v hv

theorem noNestedNullEntries_mem {entries : List (String × PValue)}
    (h : noNestedNullEntries entries = true) :
    ∀ p ∈ entries, p.2 ≠ .null ∧ p.2 ≠ .undef ∧ noNestedNull p.2 = true := by
  induction entries with
  | nil => intro p hp; cases hp
  | cons hd tl ih =>
    obtain ⟨k, v⟩ := hd
    rw [noNestedNullEntries, Bool.and_eq_true, Bool.and_eq_true] at h
    intro p hp
    rcases List.mem_cons.mp hp with rfl | hp
    · refine ⟨?_, ?_, h.1.2⟩
      · intro hv0
        rw [show (k, v).2 = v from rfl] at hv0
        rw [hv0] at h
        exact absurd h.1.1 (by decide)
      · intro hv0
        rw [show (k, v).2 = v from rfl] at hv0
        rw [hv0] at h
        exact absurd h.1.1 (by decide)
    · exact ih h.2 p hp

theorem writeVal_eq_none {v : PValue} (h1 : v ≠ .null) (h2 : v ≠ .undef) :
    ∃ e, writeVal v = some e := by
  cases v with
  | null => exact absurd rfl h1
  | undef => exact absurd rfl h2
  | bool b => exact ⟨_, rfl⟩
  | str s => exact ⟨_, rfl⟩
  | num j => exact ⟨_, rfl⟩
  | bigint n => exact ⟨_, rfl⟩
  | date ms => exact ⟨_, rfl⟩
  | data bytes => exact ⟨_, rfl⟩
  | arr items => exact ⟨_, rfl⟩
  | dict entries => exact ⟨_, rfl⟩

theorem nodupKeys_cons {k : String} {v : PValue} {rest : List (String × PValue)}
    (h : nodupKeys ((k, v) :: rest) = true) :
    rest.any (fun p => p.1 = k) = false ∧ nodupKeys rest = true := by
  rw [nodupKeys, Bool.and_eq_true] at h
  exact ⟨by simpa using h.1, h.2⟩

theorem foldl_upsert_of_fresh : ∀ (l : List (String × PValue)) (acc : List (String × PValue)),
    nodupKeys l = true →
    (∀ p ∈ l, acc.any (fun q => q.1 = p.1) = false) →
    l.foldl upsertEntry acc = acc ++ l := by
  intro l
  induction l with
  | nil => intro acc _ _; simp
  | cons hd tl ih =>
    intro acc hnd hacc
    obtain ⟨k, v⟩ := hd
    obtain ⟨hk, htl⟩ := nodupKeys_cons hnd
    simp only [List.foldl_cons]
    have hupd : upsertEntry acc (k, v) = acc ++ [(k, v)] := by
      rw [upsertEntry, if_neg]
      rw [hacc (k, v) (List.mem_cons_self _ _)]
      decide
    rw [hupd, ih (acc ++ [(k, v)]) htl]
    · rw [List.append_assoc]
      rfl
    · intro p hp
      rw [List.any_append, Bool.or_eq_false_iff]
      constructor
      · exact hacc p (List.mem_cons_of_mem _ hp)
      · simp only [List.any_cons, List.any_nil, Bool.or_false]
        rw [decide_eq_false_iff_not]
        intro hkp
        have : tl.any (fun p' => p'.1 = k) = true :=
          List.any_eq_true.mpr ⟨p, hp, by rw [← hkp]; exact decide_eq_true rfl⟩
        rw [this] at hk
        exact absurd hk (by decide)

theorem jsFromEntries_of_nodup {l : List (String × PValue)} (h : nodupKeys l = true) :
    jsFromEntries l = l := by
  have := foldl_upsert_of_fresh l [] h (fun p _ => rfl)
  rw [jsFromEntries, this, List.nil_append]

theorem canon_num_num (x : ℚ) :
    canon (.num (.num x)) =
      if x.den = 1 ∧ maxSafeInt < x.num.natAbs then .bigint x.num else .num (.num x) := rfl

theorem canon_bigint (n : Int) :
    canon (.bigint n) = if n.natAbs ≤ maxSafeInt then .num (.num ((n : ℤ) : ℚ)) else .bigint n := rfl

theorem readList_nil : readList [] = .ok ([], []) := rfl

theorem readEntries_nil : readEntries [] = .ok ([], []) := rfl

theorem readList_cons_ok {c : Element} {cs : List Element} {v : PValue} {w1 : List String}
    {vs : List PValue} {w2 : List String}
    (h1 : readVal c = .ok (v, w1)) (h2 : readList cs = .ok (vs, w2)) :
    readList (c :: cs) = .ok (v :: vs, w1 ++ w2) := by
  simp [readList, h1, h2]
  rfl

theorem readEntries_cons_ok {k v : Element} {rest : List Element} {pv : PValue}
    {w1 : List String} {es : List (String × PValue)} {w2 : List String}
    (hk : k.tag = "key") (h1 : readVal v = .ok (pv, w1))
    (h2 : readEntries rest = .ok (es, w2)) :
    readEntries (k :: v :: rest) = .ok ((k.textContent, pv) :: es, w1 ++ w2) := by
  simp [readEntries, hk, h1, h2]
  rfl

theorem readVal_array_ok {cs : List Element} {tx : String} {vs : List PValue}
    {ws : List String} (h : readList cs = .ok (vs, ws)) :
    readVal (.mk "array" cs tx) = .ok (.arr vs, ws) := by
  simp [readVal, h]

theorem readVal_dict_ok {cs : List Element} {tx : String} {es : List (String × PValue)}
    {ws : List String} (h : readEntries cs = .ok (es, ws)) :
    readVal (.mk "dict" cs tx) = .ok (.dict (jsFromEntries es), ws) := by
  simp [readVal, h]

theorem readVal_integer_ok {cs : List Element} {tx : String} {v : PValue}
    (h : readInt (tx ++ textContentList cs) = .ok v) :
    readVal (.mk "integer" cs tx) = .ok (v, []) := by
  simp [readVal, h]

theorem readVal_integer_err {cs : List Element} {tx : String} {msg : String}
    (h : readInt (tx ++ textContentList cs) = .error msg) :
    readVal (.mk "integer" cs tx) = .error msg := by
  simp [readVal, h]

theorem readVal_data_ok {cs : List Element} {tx : String} {bytes : List Nat}
    (h : b64decodeData (tx ++ textContentList cs) = some bytes) :
    readVal (.mk "data" cs tx) = .ok (.data bytes, []) := by
  simp [readVal, h]
  rfl

theorem findTagList_cons (t : String) (c : Element) (cs : List Element) :
    findTagList t (c :: cs) =
      match findTag t c with
      | some r => some r
      | none => findTagList t cs := rfl

theorem findTag_mk (t tag : String) (cs : List Element) (tx : String) :
    findTag t (.mk tag cs tx) =
      if tag = t then some (.mk tag cs tx) else findTagList t cs := rfl

theorem writeVal_no_parsererror :
    ∀ v e, writeVal v = some e → findTag "parsererror" e = none := by
  intro v
  induction v using PValue.myInduction with
  | hnull => intro e he; exact absurd he (by simp [writeVal])
  | hundef => intro e he; exact absurd he (by simp [writeVal])
  | hbool b =>
    intro e he
    cases b <;> (injection he with he'; subst he'; rfl)
  | hstr s => intro e he; injection he with he'; subst he'; rfl
  | hnum j =>
    intro e he
    by_cases hi : jsIsInteger j = true
    · rw [writeVal, hi, if_pos rfl] at he
      injection he with he'
      subst he'
      rfl
    · rw [writeVal, if_neg hi] at he
      injection he with he'
      subst he'
      rfl
  | hbigint n => intro e he; injection he with he'; subst he'; rfl
  | hdate ms => intro e he; injection he with he'; subst he'; rfl
  | hdata bytes => intro e he; injection he with he'; subst he'; rfl
  | harr items ih =>
    intro e he
    injection he with he'
    subst he'
    rw [findTag_mk, if_neg (by decide)]
    induction items with
    | nil => rfl
    | cons hd tl ihtl =>
      have ihtl' := ihtl (fun v hv => ih v (List.mem_cons_of_mem hd hv))
      show findTagList "parsererror" (writeList (hd :: tl)) = none
      rw [writeList]
      cases hw : writeVal hd with
      | none => exact ihtl'
      | some e' =>
        rw [findTagList_cons, ih hd (List.mem_cons_self hd tl) e' hw]
        exact ihtl'
  | hdict entries ih =>
    intro e he
    injection he with he'
    subst he'
    rw [findTag_mk, if_neg (by decide)]
    induction entries with
    | nil => rfl
    | cons hd tl ihtl =>
      obtain ⟨k, v⟩ := hd
      have ihtl' := ihtl (fun p hp => ih p (List.mem_cons_of_mem _ hp))
      show findTagList "parsererror" (writeEntries ((k, v) :: tl)) = none
      rw [writeEntries, findTagList_cons]
      rw [show findTag "parsererror" (.mk "key" [] k) = none from rfl]
      cases hw : writeVal v with
      | none => exact ihtl'
      | some e' =>
        rw [findTagList_cons, ih (k, v) (List.mem_cons_self _ tl) e' hw]
        exact ihtl'

theorem canonEntries_any_key (k : String) : ∀ l : List (String × PValue),
    (canonEntries l).any (fun p => p.1 = k) = l.any (fun p => p.1 = k) := by
  intro l
  induction l with
  | nil => rfl
  | cons hd tl ih =>
    obtain ⟨k', v⟩ := hd
    show ((k', canon v) :: canonEntries tl).any _ = _
    rw [List.any_cons, List.any_cons, ih]

theorem nodupKeys_canonEntries : ∀ l : List (String × PValue),
    nodupKeys (canonEntries l) = nodupKeys l := by
  intro l
  induction l with
  | nil => rfl
  | cons hd tl ih =>
    obtain ⟨k, v⟩ := hd
    show nodupKeys ((k, canon v) :: canonEntries tl) = _
    rw [nodupKeys, nodupKeys, ih, canonEntries_any_key]

theorem readList_writeList {items : List PValue}
    (H : ∀ v ∈ items, v ≠ .null ∧ v ≠ .undef ∧
      (∀ e, writeVal v = some e → readVal e = .ok (canon v, []))) :
    readList (writeList items) = .ok (canonList items, []) := by
  induction items with
  | nil => rfl
  | cons hd tl ih =>
    have hhd := H hd (List.mem_cons_self hd tl)
    have ihtl := ih (fun v hv => H v (List.mem_cons_of_mem hd hv))
    obtain ⟨e', he'⟩ := writeVal_eq_none hhd.1 hhd.2.1
    have hre : readVal e' = .ok (canon hd, []) := hhd.2.2 e' he'
    show readList (writeList (hd :: tl)) = .ok (canonList (hd :: tl), [])
    rw [writeList, he']
    rw [readList_cons_ok hre ihtl]
    rfl

theorem readEntries_writeEntries {entries : List (String × PValue)}
    (H : ∀ p ∈ entries, p.2 ≠ .null ∧ p.2 ≠ .undef ∧
      (∀ e, writeVal p.2 = some e → readVal e = .ok (canon p.2, []))) :
    readEntries (writeEntries entries) = .ok (canonEntries entries, []) := by
  induction entries with
  | nil => rfl
  | cons hd tl ih =>
    obtain ⟨k, v⟩ := hd
    have hhd := H (k, v) (List.mem_cons_self _ tl)
    have ihtl := ih (fun p hp => H p (List.mem_cons_of_mem _ hp))
    obtain ⟨e', he'⟩ := writeVal_eq_none hhd.1 hhd.2.1
    have hre : readVal e' = .ok (canon v, []) := hhd.2.2 e' he'
    show readEntries (writeEntries ((k, v) :: tl)) = .ok (canonEntries ((k, v) :: tl), [])
    rw [writeEntries, he']
    have hkey : readEntries (Element.mk "key" [] k :: e' :: writeEntries tl) =
        .ok (((Element.mk "key" [] k).textContent, canon v) :: canonEntries tl, [] ++ []) :=
      readEntries_cons_ok rfl hre ihtl
    rw [hkey]
    have htc : (Element.mk "key" [] k).textContent = k := by
      show k ++ textContentList [] = k
      exact String.append_empty k
    rw [htc]
    rfl

theorem roundtrip_val : ∀ v, Representable v = true → noNestedNull v = true →
    faithfulNums v = true →
    ∀ e, writeVal v = some e → readVal e = .ok (canon v, []) := by
  intro v
  induction v using PValue.myInduction with
  | hnull => intro _ _ _ e he; exact absurd he (by simp [writeVal])
  | hundef => intro hr _ _ e he; exact absurd hr (by decide)
  | hbool b =>
    intro _ _ _ e he
    cases b <;> (injection he with he'; subst he'; rfl)
  | hstr s =>
    intro _ _ _ e he
    injection he with he'
    subst he'
    show Except.ok (PValue.str (s ++ textContentList []), ([] : List String)) = _
    rw [show textContentList [] = "" from rfl, String.append_empty]
    rfl
  | hnum j =>
    intro hr _ hp e he
    cases j with
    | nan =>
      injection he with he'
      subst he'
      show Except.ok (PValue.num (jsParseFloat ("NaN" ++ textContentList [])), ([] : List String)) = _
      rw [show textContentList [] = "" from rfl, String.append_empty]
      rfl
    | inf neg =>
      cases neg
      · injection he with he'
        subst he'
        show Except.ok (PValue.num (jsParseFloat ("Infinity" ++ textContentList [])), ([] : List String)) = _
        rw [show textContentList [] = "" from rfl, String.append_empty]
        rfl
      · injection he with he'
        subst he'
        show Except.ok (PValue.num (jsParseFloat ("-Infinity" ++ textContentList [])), ([] : List String)) = _
        rw [show textContentList [] = "" from rfl, String.append_empty]
        rfl
    | num x =>
      have hdy : x.den = 2 ^ twoVal x.den := by
        have hb : (x.den == 2 ^ twoVal x.den) = true := hr
        exact beq_iff_eq.mp hb
      have hpx : numFaithful x = true := hp
      by_cases hint : x.den = 1
      · have hsafe : x.num.natAbs ≤ maxSafeInt := by
          rw [numFaithful, if_pos (beq_iff_eq.mpr hint)] at hpx
          exact of_decide_eq_true hpx
        have hx : jsExpRender x = false := jsExpRender_safe_int hint hsafe
        have hii : jsIsInteger (.num x) = true := by
          rw [jsIsInteger, hint]
          rfl
        rw [writeVal, hii, if_pos rfl] at he
        injection he with he'
        subst he'
        have htext : jsNumToString (.num x) ++ textContentList [] = intToString x.num := by
          rw [show textContentList [] = "" from rfl, String.append_empty,
            jsNumToString, qRenderDecimal_den_one hint hx]
        have hri : readInt (jsNumToString (.num x) ++ textContentList []) =
            .ok (if x.num.natAbs ≤ maxSafeInt then .num (.num ((x.num : ℤ) : ℚ))
                 else .bigint x.num) := by
          rw [htext]
          exact readInt_intToString x.num
        rw [readVal_integer_ok hri]
        rw [if_pos hsafe, rat_intCast_of_den_one hint, canon_num_num,
          if_neg (by omega)]
      · have hx : jsExpRender x = false := by
          rw [numFaithful, if_neg (by simp [hint])] at hpx
          simpa using hpx
        have hii : jsIsInteger (.num x) = false := by
          rw [jsIsInteger]
          exact beq_eq_false_iff_ne.mpr hint
        rw [writeVal, hii] at he
        rw [if_neg (by simp)] at he
        injection he with he'
        subst he'
        show Except.ok (PValue.num (jsParseFloat (jsNumToString (.num x) ++ textContentList [])),
          ([] : List String)) = _
        rw [show textContentList [] = "" from rfl, String.append_empty, jsNumToString,
          jsParseFloat_qRender hdy hx, canon_num_num, if_neg (by tauto)]
  | hbigint n =>
    intro _ _ _ e he
    injection he with he'
    subst he'
    have hri : readInt (intToString n ++ textContentList []) =
        .ok (if n.natAbs ≤ maxSafeInt then .num (.num ((n : ℤ) : ℚ)) else .bigint n) := by
      rw [show textContentList [] = "" from rfl, String.append_empty]
      exact readInt_intToString n
    rw [readVal_integer_ok hri, canon_bigint]
  | hdate ms =>
    intro _ _ _ e he
    injection he with he'
    subst he'
    show Except.ok (PValue.date (dateFromText (dateToText ms ++ textContentList [])),
      ([] : List String)) = _
    rw [show textContentList [] = "" from rfl, String.append_empty, dateToText,
      dateFromText, jsToBigInt_intToString]
    rfl
  | hdata bytes =>
    intro hr _ _ e he
    injection he with he'
    subst he'
    have hb : ∀ b ∈ bytes, b < 256 := by
      intro b hb
      have := List.all_eq_true.mp hr b hb
      exact of_decide_eq_true this
    have hdec : b64decodeData (b64encode bytes ++ textContentList []) = some bytes := by
      rw [show textContentList [] = "" from rfl, String.append_empty]
      exact b64decodeData_encode hb
    rw [readVal_data_ok hdec]
    rfl
  | harr items ih =>
    intro hr hn hp e he
    injection he with he'
    subst he'
    have hrl : representableList items = true := hr
    have hnl : noNestedNullList items = true := hn
    have hpl : faithfulNumsList items = true := hp
    have H : ∀ v ∈ items, v ≠ .null ∧ v ≠ .undef ∧
        (∀ e, writeVal v = some e → readVal e = .ok (canon v, [])) := by
      intro v hv
      have h1 := noNestedNullList_mem hnl v hv
      have h2 := representableList_mem hrl v hv
      have h3 := faithfulNumsList_mem hpl v hv
      exact ⟨h1.1, h1.2.1, fun e he => ih v hv h2 h1.2.2 h3 e he⟩
    rw [readVal_array_ok (readList_writeList H)]
    rfl
  | hdict entries ih =>
    intro hr hn hp e he
    injection he with he'
    subst he'
    have hr' : nodupKeys entries = true ∧ representableEntries entries = true := by
      have hb : (nodupKeys entries && representableEntries entries) = true := hr
      rw [Bool.and_eq_true] at hb
      exact hb
    have hne : noNestedNullEntries entries = true := hn
    have hpe : faithfulNumsEntries entries = true := hp
    have H : ∀ p ∈ entries, p.2 ≠ .null ∧ p.2 ≠ .undef ∧
        (∀ e, writeVal p.2 = some e → readVal e = .ok (canon p.2, [])) := by
      intro p hq
      have h1 := noNestedNullEntries_mem hne p hq
      have h2 := representableEntries_mem hr'.2 p hq
      have h3 := faithfulNumsEntries_mem hpe p hq
      exact ⟨h1.1, h1.2.1, fun e he => ih p hq h2 h1.2.2 h3 e he⟩
    rw [readVal_dict_ok (readEntries_writeEntries H)]
    rw [jsFromEntries_of_nodup (by rw [nodupKeys_canonEntries]; exact hr'.1)]
    rfl

theorem roundtrip_doc (v : PValue) (hr : Representable v = true)
    (hn : noNestedNull v = true) (hf : faithfulNums v = true) :
    readDoc (writeDoc v) = .ok (canon v, []) := by
  by_cases hnull : v = .null
  · subst hnull
    rfl
  · have hundef : v ≠ .undef := by
      intro h
      subst h
      exact absurd hr (by decide)
    obtain ⟨e, he⟩ := writeVal_eq_none hnull hundef
    rw [writeDoc, he]
    have hpe : findTag "parsererror" (.mk "plist" [e] "") = none := by
      rw [findTag_mk, if_neg (by decide), findTagList_cons,
        writeVal_no_parsererror v e he]
      rfl
    have hpl : findTag "plist" (.mk "plist" [e] "") =
        some (.mk "plist" [e] "") := by
      rw [findTag_mk, if_pos rfl]
    show readDoc (.mk "plist" [e] "") = _
    rw [readDoc, hpe, hpl]
    show readVal e = _
    exact roundtrip_val v hr hn hf e he

/-- C2: serializing an integer whose magnitude exceeds `2^53 - 1` emits its
exact decimal digit string, and reading the result back reproduces the
integer exactly, as an arbitrary-precision integer. -/
theorem claim_c2_bigint_roundtrip (n : Int) (h : 2 ^ 53 - 1 < n.natAbs) :
    writeVal (.bigint n) = some (.mk "integer" [] (intToString n)) ∧
    readDoc (writeDoc (.bigint n)) = .ok (.bigint n, []) := by
  refine ⟨rfl, ?_⟩
  rw [roundtrip_doc (.bigint n) rfl rfl rfl, canon_bigint,
    if_neg (by simp only [maxSafeInt]; omega)]

/-- Witness for C2 at `2^53`. -/
theorem claim_c2_bigint_roundtrip_witness :
    2 ^ 53 - 1 < (9007199254740992 : ℤ).natAbs ∧
    (writeVal (.bigint 9007199254740992) =
      some (.mk "integer" [] (intToString 9007199254740992)) ∧
    readDoc (writeDoc (.bigint 9007199254740992)) = .ok (.bigint 9007199254740992, [])) :=
  ⟨by decide, claim_c2_bigint_roundtrip 9007199254740992 (by decide)⟩

/-- C5: decoding the base64 encoding of any byte sequence returns the original
bytes, and decoding still recovers them from any text whose
non-whitespace characters are that encoding (arbitrary whitespace
insertion). -/
theorem claim_c5_base64_roundtrip (b : List Nat) (t : String)
    (hb : ∀ x ∈ b, x < 256)
    (ht : t.data.filter (fun c => !isJsWs c) = b64encodeChars b) :
    b64decodeData (b64encode b) = some b ∧ b64decodeData t = some b := by
  refine ⟨b64decodeData_encode hb, ?_⟩
  rw [b64decodeData, ht]
  exact b64decodeChars_encode hb

/-- Witness for C5 at the spec's concrete scenario 4, with a newline inserted
into the base64 text. -/
theorem claim_c5_base64_roundtrip_witness :
    (∀ x ∈ [0, 1, 2, 255], x < 256) ∧
    ("AAEC\n/w==".data.filter (fun c => !isJsWs c) = b64encodeChars [0, 1, 2, 255]) ∧
    (b64decodeData (b64encode [0, 1, 2, 255]) = some [0, 1, 2, 255] ∧
     b64decodeData "AAEC\n/w==" = some [0, 1, 2, 255]) :=
  ⟨by decide, by decide, claim_c5_base64_roundtrip [0, 1, 2, 255] "AAEC\n/w==" (by decide) (by decide)⟩

/-- C6: a document carrying a `parsererror` element (how the XML engine
reports malformed text) makes the reader fail with the fatal parse error; a
document with no `plist` element makes it fail with the missing-root error —
in both cases no partial value is returned; and a present but empty `plist`
root reads successfully as Null. -/
theorem claim_c6_malformed_and_empty (root : Element) :
    (∀ e, findTag "parsererror" root = some e →
      readDoc root = .error ("Error parsing XML: " ++ e.textContent)) ∧
    (findTag "parsererror" root = none → findTag "plist" root = none →
      readDoc root = .error "Invalid plist: Missing <plist> root element.") ∧
    (∀ p, findTag "parsererror" root = none → findTag "plist" root = some p →
      p.children = [] → readDoc root = .ok (.null, [])) := by
  refine ⟨?_, ?_, ?_⟩
  · intro e he
    rw [readDoc, he]
  · intro h1 h2
    rw [readDoc, h1, h2]
  · intro p h1 h2 h3
    rw [readDoc, h1, h2]
    dsimp only []
    rw [h3]
    rfl

/-- Witness for C6 on three concrete documents. -/
theorem claim_c6_malformed_and_empty_witness :
    readDoc (.mk "parsererror" [] "unclosed tag") =
      .error ("Error parsing XML: " ++ (Element.mk "parsererror" [] "unclosed tag").textContent) ∧
    readDoc (.mk "html" [] "") = .error "Invalid plist: Missing <plist> root element." ∧
    readDoc (.mk "plist" [] "") = .ok (.null, []) :=
  ⟨(claim_c6_malformed_and_empty _).1 _ rfl,
   (claim_c6_malformed_and_empty _).2.1 rfl rfl,
   (claim_c6_malformed_and_empty _).2.2 _ rfl rfl rfl⟩

/-- C7: serializing an array drops every Null element entirely — at any
position a Null contributes no child — and on the concrete input
`[1, Null, 2]` the output `array` element has exactly the two integer
children `1` and `2`, in order. -/
theorem claim_c7_array_null_dropped :
    writeVal (.arr [.num (.num 1), .null, .num (.num 2)]) =
      some (.mk "array" [.mk "integer" [] "1", .mk "integer" [] "2"] "") ∧
    ∀ pre post, writeList (pre ++ .null :: post) = writeList (pre ++ post) := by
  constructor
  · rfl
  · intro pre post
    induction pre with
    | nil => rfl
    | cons hd tl ih =>
      show writeList (hd :: (tl ++ .null :: post)) = writeList (hd :: (tl ++ post))
      cases hw : writeVal hd with
      | none => rw [writeList, hw, ih, writeList, hw]
      | some e => rw [writeList, hw, ih, writeList, hw]

/-- C9: an `integer` element whose text is empty or all whitespace reads as
the machine integer 0: `Number` of such text is 0, which is a safe integer,
so no error is raised. -/
theorem claim_c9_blank_integer (s : String) (h : s.data.all isJsWs = true) :
    readVal (.mk "integer" [] s) = .ok (.num (.num 0), []) := by
  apply readVal_integer_ok
  rw [show s ++ textContentList [] = s from String.append_empty s, readInt]
  have h0 : jsToNumber s = .num 0 := by
    rw [jsToNumber]
    have htrim : trimWs s.data = [] := by
      rw [trimWs, dropWhile_of_all (fun c hc => List.all_eq_true.mp h c hc)]
      rfl
    rw [htrim]
    rfl
  rw [h0]
  rfl

/-- Witness for C9 on a two-space text. -/
theorem claim_c9_blank_integer_witness :
    "  ".data.all isJsWs = true ∧
    readVal (.mk "integer" [] "  ") = .ok (.num (.num 0), []) :=
  ⟨by decide, claim_c9_blank_integer "  " (by decide)⟩

/-- C10: the writer treats `undefined` exactly like Null: it produces no
element, an `undefined` array element is omitted (shortening the output
array), and an `undefined` dict value leaves a dangling `key` element with no
following value element. -/
theorem claim_c10_undefined_like_null :
    writeVal .undef = none ∧ writeVal .undef = writeVal .null ∧
    (∀ pre post, writeList (pre ++ .undef :: post) = writeList (pre ++ post)) ∧
    (∀ pre post k, writeEntries (pre ++ ((k, .undef) :: post)) =
      writeEntries pre ++ .mk "key" [] k :: writeEntries post) := by
  refine ⟨rfl, rfl, ?_, ?_⟩
  · intro pre post
    induction pre with
    | nil => rfl
    | cons hd tl ih =>
      show writeList (hd :: (tl ++ .undef :: post)) = writeList (hd :: (tl ++ post))
      cases hw : writeVal hd with
      | none => rw [writeList, hw, ih, writeList, hw]
      | some e => rw [writeList, hw, ih, writeList, hw]
  · intro pre post k
    induction pre with
    | nil => rfl
    | cons hd tl ih =>
      obtain ⟨k', v'⟩ := hd
      show writeEntries ((k', v') :: (tl ++ (k, .undef) :: post)) = _
      cases hw : writeVal v' with
      | none =>
        rw [writeEntries, hw, ih]
        show _ = writeEntries ((k', v') :: tl) ++ _
        rw [writeEntries, hw]
        rfl
      | some e =>
        rw [writeEntries, hw, ih]
        show _ = writeEntries ((k', v') :: tl) ++ _
        rw [writeEntries, hw]
        rfl

theorem decimalBodyChars_digits {ds : List Char} (hne : ds ≠ [])
    (hall : ∀ c ∈ ds, c.isDigit = true) : decimalBodyChars ds = true := by
  simp only [decimalBodyChars, takeWhile_of_all hall, dropWhile_of_all hall]
  cases ds with
  | nil => exact absurd rfl hne
  | cons c rest => rfl

theorem decimalBodyChars_frac {ip fp : List Char} (hip : ip ≠ [])
    (hipd : ∀ c ∈ ip, c.isDigit = true) (hfp : fp ≠ [])
    (hfpd : ∀ c ∈ fp, c.isDigit = true) :
    decimalBodyChars (ip ++ '.' :: fp) = true := by
  obtain ⟨hT, hD⟩ := takeWhile_all_append Char.isDigit ip '.' fp hipd (by decide)
  simp only [decimalBodyChars, hT, hD]
  have h1 : ip.isEmpty = false := by
    cases ip with
    | nil => exact absurd rfl hip
    | cons a l => rfl
  have h2 : fp.isEmpty = false := by
    cases fp with
    | nil => exact absurd rfl hfp
    | cons a l => rfl
  simp [h1, h2, List.all_eq_true]
  exact hfpd

theorem decimalBodyChars_minus (rest : List Char) :
    decimalBodyChars ('-' :: rest) = false := by
  have hd : ('-').isDigit = false := by decide
  simp only [decimalBodyChars, List.takeWhile_cons, List.dropWhile_cons, hd]
  simp

theorem isDecimalIntString_mk_digits {cs : List Char} (hne : cs ≠ [])
    (hall : ∀ c ∈ cs, c.isDigit = true) :
    isDecimalIntString (String.mk cs) = true ∧
    isDecimalIntString (String.mk ('-' :: cs)) = true := by
  constructor
  · rw [isDecimalIntString.eq_def]
    cases cs with
    | nil => exact absurd rfl hne
    | cons c rest =>
      dsimp only []
      have hc : c.isDigit = true := hall c (List.mem_cons_self c rest)
      have hcn : ¬(c = '-') := fun h => by
        rw [h] at hc
        exact absurd hc (by decide)
      rw [if_neg hcn]
      exact List.all_eq_true.mpr hall
  · rw [isDecimalIntString.eq_def]
    dsimp only []
    rw [if_pos rfl]
    have h1 : cs.isEmpty = false := by
      cases cs with
      | nil => exact absurd rfl hne
      | cons a l => rfl
    simp [h1, List.all_eq_true]
    exact hall

theorem isDecimalIntString_intToString (n : Int) :
    isDecimalIntString (intToString n) = true := by
  have hne := natToChars_ne_nil n.natAbs
  have hall := natToChars_all_digit n.natAbs
  rw [intToString, intToChars]
  by_cases hn : n < 0
  · rw [if_pos hn]
    exact (isDecimalIntString_mk_digits hne hall).2
  · rw [if_neg hn]
    exact (isDecimalIntString_mk_digits hne hall).1

theorem isDecimalFloatString_mk {cs : List Char} (h : decimalBodyChars cs = true) :
    isDecimalFloatString (String.mk cs) = true ∧
    isDecimalFloatString (String.mk ('-' :: cs)) = true := by
  constructor
  · rw [isDecimalFloatString.eq_def]
    cases cs with
    | nil => exact absurd h (by decide)
    | cons c rest =>
      dsimp only []
      by_cases hc : c = '-'
      · subst hc
        rw [decimalBodyChars_minus] at h
        exact absurd h (by decide)
      · rw [if_neg hc]
        exact h
  · rw [isDecimalFloatString.eq_def]
    dsimp only []
    rw [if_pos rfl]
    exact h

theorem isDecimalFloatString_intToString (m : Int) :
    isDecimalFloatString (intToString m) = true := by
  have hbody : decimalBodyChars (natToChars m.natAbs) = true :=
    decimalBodyChars_digits (natToChars_ne_nil _) (natToChars_all_digit _)
  rw [intToString, intToChars]
  by_cases hm : m < 0
  · rw [if_pos hm]
    exact (isDecimalFloatString_mk hbody).2
  · rw [if_neg hm]
    exact (isDecimalFloatString_mk hbody).1

theorem isDecimalFloatString_qRenderPositional (q : ℚ) :
    isDecimalFloatString (qRenderPositional q) = true := by
  simp only [qRenderPositional]
  by_cases he : max (twoVal q.den) (fiveVal q.den) = 0
  · rw [if_pos he]
    exact isDecimalFloatString_intToString _
  · rw [if_neg he]
    set e := max (twoVal q.den) (fiveVal q.den) with hedef
    set m : Int := q.num * ((10 ^ e / q.den : Nat) : Int) with hmdef
    set a := m.natAbs with hadef
    have hpos : 0 < e := Nat.pos_of_ne_zero he
    have hmodlt : a % 10 ^ e < 10 ^ e := Nat.mod_lt _ (Nat.pos_pow_of_pos e (by norm_num))
    have hfpne : padZeros e (natToChars (a % 10 ^ e)) ≠ [] := by
      have hlen : (padZeros e (natToChars (a % 10 ^ e))).length = e :=
        padZeros_length (natToChars_length_le hmodlt hpos)
      intro hnil
      rw [hnil] at hlen
      exact absurd hlen.symm (Nat.pos_iff_ne_zero.mp hpos)
    have hbody : decimalBodyChars (natToChars (a / 10 ^ e) ++
        '.' :: padZeros e (natToChars (a % 10 ^ e))) = true :=
      decimalBodyChars_frac (natToChars_ne_nil _) (natToChars_all_digit _) hfpne
        (padZeros_all_digit e _ (natToChars_all_digit _))
    by_cases hm : m < 0
    · rw [if_pos hm]
      exact (isDecimalFloatString_mk hbody).2
    · rw [if_neg hm]
      show isDecimalFloatString (String.mk ([] ++ _)) = true
      rw [List.nil_append]
      exact (isDecimalFloatString_mk hbody).1

/-- C8 counterexample: `NaN` is a machine number that is not integral-valued,
so the claim requires a `real` element whose text is a decimal floating-point
string; the writer does emit a `real` element, but its text is `NaN`, which is
not a decimal floating-point string. -/
theorem claim_c8_counterexample :
    writeVal (.num .nan) = some (.mk "real" [] "NaN") ∧
    isDecimalFloatString "NaN" = false := by
  constructor
  · rfl
  · decide

/-- C8 amended: for finite machine numbers inside the positional rendering
range of `String(number)` (`|x| < 10^21`, and `|x| ≥ 10^-6` unless zero) the
claim holds — an integral value becomes an `integer` element with a decimal
integer string, a fractional value a `real` element with a decimal
floating-point string.  Outside it the claim fails twice over: the non-finite
machine numbers `NaN` and `±Infinity` become `real` elements whose text is not
a decimal floating-point string, and finite values in the exponential range
get exponential text — `10^21` an `integer` element with text `1e+21`, which
is not a decimal integer string, and `10^-7` a `real` element with text
`1e-7`, which is not a decimal floating-point string. -/
theorem claim_c8_amended :
    (∀ q : ℚ, q.den = 1 → jsExpRender q = false →
      writeVal (.num (.num q)) = some (.mk "integer" [] (jsNumToString (.num q))) ∧
      isDecimalIntString (jsNumToString (.num q)) = true) ∧
    (∀ q : ℚ, q.den ≠ 1 → jsExpRender q = false →
      writeVal (.num (.num q)) = some (.mk "real" [] (jsNumToString (.num q))) ∧
      isDecimalFloatString (jsNumToString (.num q)) = true) ∧
    writeVal (.num .nan) = some (.mk "real" [] (jsNumToString .nan)) ∧
    (∀ neg, writeVal (.num (.inf neg)) = some (.mk "real" [] (jsNumToString (.inf neg))) ∧
      isDecimalFloatString (jsNumToString (.inf neg)) = false) ∧
    (writeVal (.num (.num 1000000000000000000000)) =
        some (.mk "integer" [] "1e+21") ∧
      isDecimalIntString "1e+21" = false) ∧
    (writeVal (.num (.num (mkRat 1 10000000))) = some (.mk "real" [] "1e-7") ∧
      isDecimalFloatString "1e-7" = false) := by
  refine ⟨?_, ?_, rfl, ?_, ⟨rfl, by decide⟩, ⟨rfl, by decide⟩⟩
  · intro q hq hx
    have hint : jsIsInteger (.num q) = true := by
      rw [jsIsInteger]
      exact beq_iff_eq.mpr hq
    constructor
    · rw [writeVal, if_pos hint]
    · show isDecimalIntString (qRenderDecimal q) = true
      rw [qRenderDecimal_den_one hq hx]
      exact isDecimalIntString_intToString q.num
  · intro q hq hx
    have hint : ¬(jsIsInteger (.num q) = true) := by
      rw [jsIsInteger]
      simp [hq]
    constructor
    · rw [writeVal, if_neg hint]
    · show isDecimalFloatString (qRenderDecimal q) = true
      rw [qRenderDecimal_not_exp hx]
      exact isDecimalFloatString_qRenderPositional q
  · intro neg
    cases neg with
    | false => exact ⟨rfl, by decide⟩
    | true => exact ⟨rfl, by decide⟩

/-- Witness for C8 amended at the integral value 5 and the fractional value
3/2, both rendered positionally. -/
theorem claim_c8_amended_witness :
    ((5 : ℚ).den = 1 ∧ jsExpRender 5 = false ∧
      writeVal (.num (.num 5)) = some (.mk "integer" [] (jsNumToString (.num 5)))) ∧
    ((mkRat 3 2).den ≠ 1 ∧ jsExpRender (mkRat 3 2) = false ∧
      writeVal (.num (.num (mkRat 3 2))) =
        some (.mk "real" [] (jsNumToString (.num (mkRat 3 2)))) ∧
      isDecimalFloatString (jsNumToString (.num (mkRat 3 2))) = true) :=
  ⟨⟨by decide, by decide, (claim_c8_amended.1 5 (by decide) (by decide)).1⟩,
   ⟨by decide, by decide, claim_c8_amended.2.1 (mkRat 3 2) (by decide) (by decide)⟩⟩

/-- C3 counterexample: a `dict` element whose children are `key a`,
`integer 1`, `key b` (odd count, trailing `key` with no value) reads as the
dictionary with the single entry `a ↦ 1`; the trailing key `b` is dropped
entirely, not mapped to Null as the claim states. -/
theorem claim_c3_counterexample :
    readVal (.mk "dict" [.mk "key" [] "a", .mk "integer" [] "1", .mk "key" [] "b"] "") =
      .ok (.dict [("a", .num (.num 1))], []) ∧
    PValue.dict [("a", .num (.num 1))] ≠ .dict [("a", .num (.num 1)), ("b", .null)] := by
  constructor
  · rfl
  · intro h
    have : ([("a", PValue.num (.num 1))] : List (String × PValue)) =
        [("a", .num (.num 1)), ("b", .null)] := by injection h
    simp at this

/-- C3 amended: only `floor(children.length / 2)` pairs of a `dict` element
are examined, so a trailing unpaired child — the dangling key included — is
ignored outright (it never maps to Null); the claim's second half stands: a
pair whose first element is not tagged `key` is dropped and a warning is
appended. -/
theorem claim_c3_amended :
    (∀ cs : List Element, cs.length % 2 = 0 →
      ∀ k : Element, readEntries (cs ++ [k]) = readEntries cs) ∧
    (∀ (k v : Element) (rest : List Element), k.tag ≠ "key" →
      readEntries (k :: v :: rest) =
        Except.map
          (fun r => (r.1, "Missing key in dictionary or malformed structure" :: r.2))
          (readEntries rest)) := by
  constructor
  · have aux : ∀ n (cs : List Element), cs.length ≤ n → cs.length % 2 = 0 →
        ∀ k : Element, readEntries (cs ++ [k]) = readEntries cs := by
      intro n
      induction n with
      | zero =>
        intro cs hle _ k
        rw [List.eq_nil_of_length_eq_zero (Nat.le_zero.mp hle)]
        rfl
      | succ m ih =>
        intro cs hle hpar k
        match cs with
        | [] => rfl
        | [x] => simp at hpar
        | x :: y :: rest =>
          have hr : rest.length ≤ m := by
            simp only [List.length_cons] at hle
            omega
          have hp2 : rest.length % 2 = 0 := by
            simp only [List.length_cons] at hpar
            omega
          show readEntries (x :: y :: (rest ++ [k])) = readEntries (x :: y :: rest)
          by_cases hx : x.tag = "key"
          · simp only [readEntries, if_pos hx, ih rest hr hp2 k]
          · simp only [readEntries, if_neg hx, ih rest hr hp2 k]
    intro cs hpar k
    exact aux cs.length cs le_rfl hpar k
  · intro k v rest hk
    simp only [readEntries, if_neg hk]
    cases hre : readEntries rest with
    | error e => simp [hre, Except.map]
    | ok r => simp [hre, Except.map]

/-- Witness for C3 amended: dropping the dangling key after the even-length
prefix `key a, integer 1`, and the warning for a pair led by a `string`
element. -/
theorem claim_c3_amended_witness :
    readEntries ([Element.mk "key" [] "a", .mk "integer" [] "1"] ++ [.mk "key" [] "b"]) =
      readEntries [Element.mk "key" [] "a", .mk "integer" [] "1"] ∧
    readEntries [Element.mk "string" [] "x", .mk "integer" [] "1"] =
      Except.map
        (fun r => (r.1, "Missing key in dictionary or malformed structure" :: r.2))
        (readEntries []) :=
  ⟨claim_c3_amended.1 [Element.mk "key" [] "a", .mk "integer" [] "1"] (by decide) _,
   claim_c3_amended.2 (.mk "string" [] "x") (.mk "integer" [] "1") [] (by decide)⟩

/-- C4 counterexample: a `real` element with the non-numeric text `abc` does
not fail — `parseFloat` returns NaN and the whole read succeeds with the
machine number NaN; only `integer` elements raise a fatal error on
non-numeric text. -/
theorem claim_c4_counterexample :
    readDoc (.mk "plist" [.mk "real" [] "abc"] "") = .ok (.num .nan, []) := by
  rfl

/-- C4 amended: for text whose numeric conversion fails (`Number` gives NaN),
an `integer` element raises a fatal error that aborts the read, while a `real`
element never fails — it yields the machine number `parseFloat` produces (NaN
for fully non-numeric text). -/
theorem claim_c4_amended (t : String) (h : jsToNumber t = .nan) :
    (∃ msg, readVal (.mk "integer" [] t) = .error msg) ∧
    readVal (.mk "real" [] t) = .ok (.num (jsParseFloat t), []) := by
  have hb : jsToBigInt t = none := by
    cases hbe : jsToBigInt t with
    | none => rfl
    | some m =>
      rw [jsToBigInt_some_imp_number hbe] at h
      exact absurd h (by simp)
  have he : t ++ textContentList [] = t := String.append_empty t
  constructor
  · refine ⟨"SyntaxError: Cannot convert " ++ t ++ " to a BigInt", ?_⟩
    apply readVal_integer_err
    rw [he, readInt]
    simp [h, hb, jsIsSafeInteger]
  · simp [readVal, he]
    rfl

/-- Witness for C4 amended at the text `abc`. -/
theorem claim_c4_amended_witness :
    jsToNumber "abc" = .nan ∧
    ((∃ msg, readVal (.mk "integer" [] "abc") = .error msg) ∧
     readVal (.mk "real" [] "abc") = .ok (.num (jsParseFloat "abc"), [])) :=
  ⟨by rfl, claim_c4_amended "abc" (by rfl)⟩
